import Mathlib

/-!
# Verification of the pauseshop-backend streaming/session core

Shallow embedding of the TypeScript sources of `pauseshop-backend`:

* `src/services/session-manager.ts`   — fixed-capacity TTL session store
* `src/routes/analyze.ts`             — session HTTP handlers
* `src/services/partial-ranking-parser.ts` — line-oriented ranking extractor
* `src/services/partial-product-parser.ts` — brace-scanning object extractor
* `src/services/analysis-utils.ts`    — product validation / sanitization
* `rankProductSimilarityStreaming`    — ranking orchestrator loop

JavaScript `Map`s are modelled as insertion-ordered association lists,
JavaScript numbers as exact rationals, and `JSON.parse` as an executable
recursive-descent parser over `List Char`.
-/

namespace PauseShop

/-- Character list, standing for a JavaScript string. -/
abbrev Str := List Char

/-! ## Session store (`src/services/session-manager.ts`) -/

/-- `Session` from `src/types/analyze.ts`: caller-supplied id, image payload,
creation time in milliseconds. -/
structure Session where
  sessionId : String
  screenshot : String
  timestamp : Int
deriving DecidableEq

/-- `SESSION_TTL = 10 * 60 * 1000` (10 minutes, in ms). -/
def SESSION_TTL : Int := 10 * 60 * 1000

/-- The `Map<string, Session>` of the session manager, as an
insertion-ordered association list (JS `Map` iterates in insertion order). -/
abbrev SessionMap := List (String × Session)

/-- `Map.prototype.get`. -/
def mapGet (m : SessionMap) (k : String) : Option Session :=
  match m with
  | [] => none
  | (k', v) :: rest => if k' = k then some v else mapGet rest k

/-- `Map.prototype.set`: replace in place when the key exists (keeping its
insertion position), otherwise append. -/
def mapSet (m : SessionMap) (k : String) (v : Session) : SessionMap :=
  match m with
  | [] => [(k, v)]
  | (k', v') :: rest => if k' = k then (k, v) :: rest else (k', v') :: mapSet rest k v

/-- `Map.prototype.delete`: returns whether the key was present, and the map
without it. -/
def mapDelete (m : SessionMap) (k : String) : Bool × SessionMap :=
  match m with
  | [] => (false, [])
  | (k', v') :: rest =>
    if k' = k then (true, rest)
    else
      let r := mapDelete rest k
      (r.1, (k', v') :: r.2)

/-- Keys of the map, in insertion order. -/
def mapKeys (m : SessionMap) : List String := m.map Prod.fst

/-- `createSession(sessionId, screenshot)`.  `maxS` is `MAX_SESSIONS`
(an environment parameter, default 100) and `now` is `Date.now()`.
When the store is at or above capacity, the first key returned by
`sessions.keys().next().value` is deleted — but only when that key is
truthy, i.e. not the empty string (`if (oldestSessionId)`). -/
def createSession (maxS : Nat) (now : Int) (st : SessionMap)
    (sessionId screenshot : String) : SessionMap :=
  let st1 :=
    if maxS ≤ st.length then
      match st.head? with
      | some (k0, _) => if k0 = "" then st else (mapDelete st k0).2
      | none => st
    else st
  mapSet st1 sessionId ⟨sessionId, screenshot, now⟩

/-- `getSession(sessionId)`: a bare `Map.get`; the stored session is returned
whatever its age (no TTL comparison appears in this method). -/
def getSession (st : SessionMap) (sessionId : String) : Option Session :=
  mapGet st sessionId

/-- `endSession(sessionId)`: `Map.delete`, reporting prior existence. -/
def endSession (st : SessionMap) (sessionId : String) : Bool × SessionMap :=
  mapDelete st sessionId

/-- `cleanupExpiredSessions()` (the periodic sweep): removes every entry with
`now - session.timestamp > SESSION_TTL`. -/
def cleanupExpiredSessions (now : Int) (st : SessionMap) : SessionMap :=
  st.filter (fun e => !(decide (SESSION_TTL < now - e.2.timestamp)))

/-- Response sent by `endSessionHandler` in `src/routes/analyze.ts`. -/
structure EndSessionResponse where
  status : Nat
  success : Bool
  message : String
deriving DecidableEq

/-- `endSessionHandler`: calls `endSession` and always answers HTTP 200 with
`success: true`, whatever `endSession` returned. -/
def endSessionHandler (st : SessionMap) (sessionId : String) :
    EndSessionResponse × SessionMap :=
  let r := endSession st sessionId
  (⟨200, true, if r.1 then "Session ended" else "Session already ended or expired"⟩, r.2)

/-- One externally triggered operation on the session store. -/
inductive SessionOp where
  | create (id screenshot : String) (now : Int) : SessionOp
  | get (id : String) : SessionOp
  | «end» (id : String) : SessionOp
  | sweep (now : Int) : SessionOp

/-- Apply one operation to the store state. -/
def applyOp (maxS : Nat) (st : SessionMap) : SessionOp → SessionMap
  | .create id screenshot now => createSession maxS now st id screenshot
  | .get _ => st
  | .«end» id => (endSession st id).2
  | .sweep now => cleanupExpiredSessions now st

/-- Run a sequence of operations from the empty store. -/
def runOps (maxS : Nat) (ops : List SessionOp) : SessionMap :=
  ops.foldl (applyOp maxS) []

/-- The ids an operation creates (used to state that the HTTP layer only ever
creates sessions under a truthy — i.e. nonempty — id). -/
def opCreatesId (op : SessionOp) (id : String) : Prop :=
  match op with
  | .create id' _ _ => id' = id
  | _ => False

/-! ### Association-list lemmas for the JS `Map` model -/

theorem mapKeys_nil : mapKeys [] = [] := rfl

theorem mapKeys_cons (k : String) (v : Session) (m : SessionMap) :
    mapKeys ((k, v) :: m) = k :: mapKeys m := rfl

theorem length_mapSet_le (m : SessionMap) (k : String) (v : Session) :
    (mapSet m k v).length ≤ m.length + 1 := by
  induction m with
  | nil => simp [mapSet]
  | cons e rest ih =>
    obtain ⟨k', v'⟩ := e
    by_cases h : k' = k
    · simp [mapSet, h]
    · simp only [mapSet, if_neg h, List.length_cons]
      omega

theorem mapKeys_mapSet_of_mem (m : SessionMap) (k : String) (v : Session)
    (h : k ∈ mapKeys m) : mapKeys (mapSet m k v) = mapKeys m := by
  induction m with
  | nil => simp [mapKeys_nil] at h
  | cons e rest ih =>
    obtain ⟨k', v'⟩ := e
    by_cases hk : k' = k
    · simp [mapSet, hk, mapKeys_cons]
    · rw [mapKeys_cons, List.mem_cons] at h
      rcases h with h | h
      · exact absurd h.symm hk
      · simp only [mapSet, if_neg hk, mapKeys_cons, ih h]

theorem mapKeys_mapSet_of_not_mem (m : SessionMap) (k : String) (v : Session)
    (h : k ∉ mapKeys m) : mapKeys (mapSet m k v) = mapKeys m ++ [k] := by
  induction m with
  | nil => simp [mapSet, mapKeys_nil, mapKeys_cons]
  | cons e rest ih =>
    obtain ⟨k', v'⟩ := e
    rw [mapKeys_cons, List.mem_cons] at h
    push_neg at h
    simp only [mapSet, if_neg (Ne.symm h.1), mapKeys_cons, ih h.2, List.cons_append]

theorem mem_mapKeys_mapSet_self (m : SessionMap) (k : String) (v : Session) :
    k ∈ mapKeys (mapSet m k v) := by
  by_cases h : k ∈ mapKeys m
  · rw [mapKeys_mapSet_of_mem m k v h]; exact h
  · rw [mapKeys_mapSet_of_not_mem m k v h]; simp

theorem mem_mapKeys_mapSet (m : SessionMap) (k k' : String) (v : Session)
    (h : k' ∈ mapKeys m) : k' ∈ mapKeys (mapSet m k v) := by
  by_cases hk : k ∈ mapKeys m
  · rwa [mapKeys_mapSet_of_mem m k v hk]
  · rw [mapKeys_mapSet_of_not_mem m k v hk]; simp [h]

theorem mapKeys_mapDelete (m : SessionMap) (k : String) :
    mapKeys (mapDelete m k).2 = (mapKeys m).erase k := by
  induction m with
  | nil => simp [mapDelete, mapKeys_nil]
  | cons e rest ih =>
    obtain ⟨k', v'⟩ := e
    by_cases h : k' = k
    · simp [mapDelete, h, mapKeys_cons, List.erase_cons_head]
    · simp only [mapDelete, if_neg h, mapKeys_cons]
      rw [List.erase_cons_tail]
      · rw [ih]
      · simpa using h

theorem length_mapDelete_of_mem (m : SessionMap) (k : String)
    (h : k ∈ mapKeys m) : (mapDelete m k).2.length + 1 = m.length := by
  induction m with
  | nil => simp [mapKeys_nil] at h
  | cons e rest ih =>
    obtain ⟨k', v'⟩ := e
    by_cases hk : k' = k
    · simp [mapDelete, hk]
    · rw [mapKeys_cons, List.mem_cons] at h
      rcases h with h | h
      · exact absurd h.symm hk
      · simp [mapDelete, hk, ih h]

theorem mapDelete_fst_iff (m : SessionMap) (k : String) :
    (mapDelete m k).1 = true ↔ k ∈ mapKeys m := by
  induction m with
  | nil => simp [mapDelete, mapKeys_nil]
  | cons e rest ih =>
    obtain ⟨k', v'⟩ := e
    by_cases hk : k' = k
    · simp [mapDelete, hk, mapKeys_cons]
    · simp [mapDelete, hk, mapKeys_cons, ih, Ne.symm hk]

theorem nodup_mapKeys_mapSet (m : SessionMap) (k : String) (v : Session)
    (h : (mapKeys m).Nodup) : (mapKeys (mapSet m k v)).Nodup := by
  by_cases hk : k ∈ mapKeys m
  · rwa [mapKeys_mapSet_of_mem m k v hk]
  · rw [mapKeys_mapSet_of_not_mem m k v hk]
    simpa [List.nodup_append] using ⟨h, hk⟩

theorem nodup_mapKeys_mapDelete (m : SessionMap) (k : String)
    (h : (mapKeys m).Nodup) : (mapKeys (mapDelete m k).2).Nodup := by
  rw [mapKeys_mapDelete]; exact h.erase k

theorem mapKeys_filter_subset (p : String × Session → Bool) (m : SessionMap) :
    ∀ k ∈ mapKeys (m.filter p), k ∈ mapKeys m := by
  intro k hk
  simp only [mapKeys, List.mem_map] at hk ⊢
  obtain ⟨e, he, rfl⟩ := hk
  exact ⟨e, (List.mem_filter.mp he).1, rfl⟩

theorem nodup_sublist_keys_filter (p : String × Session → Bool) (m : SessionMap)
    (h : (mapKeys m).Nodup) : (mapKeys (m.filter p)).Nodup := by
  have : (m.filter p).Sublist m := List.filter_sublist m
  exact ((this.map Prod.fst).nodup h)

/-! ### The store invariant: bounded size, nodup and nonempty keys -/

/-- States reachable through the HTTP layer: at most `maxS` entries, no
duplicate keys, and every key nonempty (the routes only create a session when
the caller-supplied id is truthy). -/
def StoreInv (maxS : Nat) (st : SessionMap) : Prop :=
  st.length ≤ maxS ∧ (mapKeys st).Nodup ∧ ∀ k ∈ mapKeys st, k ≠ ""

theorem storeInv_empty (maxS : Nat) : StoreInv maxS [] := by
  refine ⟨by simp, by simp [mapKeys], by simp [mapKeys]⟩

theorem length_mapSet_of_mem (m : SessionMap) (k : String) (v : Session)
    (h : k ∈ mapKeys m) : (mapSet m k v).length = m.length := by
  have h1 := mapKeys_mapSet_of_mem m k v h
  have h2 : (mapKeys (mapSet m k v)).length = (mapKeys m).length := by rw [h1]
  simpa [mapKeys] using h2

theorem length_mapSet_eq (m : SessionMap) (k : String) (v : Session) :
    (mapSet m k v).length = (mapKeys (mapSet m k v)).length := by
  simp [mapKeys]

theorem storeInv_create (maxS : Nat) (st : SessionMap) (id img : String)
    (now : Int) (hmax : 1 ≤ maxS) (hid : id ≠ "")
    (hinv : StoreInv maxS st) :
    StoreInv maxS (createSession maxS now st id img) := by
  obtain ⟨hlen, hnd, hne⟩ := hinv
  unfold createSession
  by_cases hful : maxS ≤ st.length
  · have hstlen : st.length = maxS := le_antisymm hlen hful
    have hpos : 0 < st.length := by omega
    obtain ⟨⟨k0, v0⟩, rest, rfl⟩ : ∃ e rest, st = e :: rest := by
      cases st with
      | nil => simp at hpos
      | cons e rest => exact ⟨e, rest, rfl⟩
    have hk0mem : k0 ∈ mapKeys ((k0, v0) :: rest) := by simp [mapKeys]
    have hk0 : k0 ≠ "" := hne k0 hk0mem
    simp only [if_pos hful, List.head?_cons, if_neg hk0]
    set st' := (mapDelete ((k0, v0) :: rest) k0).2 with hst'
    have hdel : st'.length + 1 = ((k0, v0) :: rest).length :=
      length_mapDelete_of_mem _ _ hk0mem
    have hndst' : (mapKeys st').Nodup := nodup_mapKeys_mapDelete _ _ hnd
    have hnest' : ∀ k ∈ mapKeys st', k ≠ "" := by
      intro k hk
      rw [hst', mapKeys_mapDelete] at hk
      exact hne k (List.mem_of_mem_erase hk)
    refine ⟨?_, nodup_mapKeys_mapSet _ _ _ hndst', ?_⟩
    · have := length_mapSet_le st' id ⟨id, img, now⟩
      omega
    · intro k hk
      by_cases hkid : id ∈ mapKeys st'
      · rw [mapKeys_mapSet_of_mem _ _ _ hkid] at hk
        exact hnest' k hk
      · rw [mapKeys_mapSet_of_not_mem _ _ _ hkid] at hk
        rcases List.mem_append.mp hk with hk | hk
        · exact hnest' k hk
        · simp at hk; subst hk; exact hid
  · push_neg at hful
    simp only [if_neg (not_le.mpr hful)]
    refine ⟨?_, nodup_mapKeys_mapSet _ _ _ hnd, ?_⟩
    · have := length_mapSet_le st id ⟨id, img, now⟩
      omega
    · intro k hk
      by_cases hkid : id ∈ mapKeys st
      · rw [mapKeys_mapSet_of_mem _ _ _ hkid] at hk
        exact hne k hk
      · rw [mapKeys_mapSet_of_not_mem _ _ _ hkid] at hk
        rcases List.mem_append.mp hk with hk | hk
        · exact hne k hk
        · simp at hk; subst hk; exact hid

theorem storeInv_applyOp (maxS : Nat) (st : SessionMap) (op : SessionOp)
    (hmax : 1 ≤ maxS)
    (hop : ∀ id, opCreatesId op id → id ≠ "")
    (hinv : StoreInv maxS st) : StoreInv maxS (applyOp maxS st op) := by
  obtain ⟨hlen, hnd, hne⟩ := hinv
  cases op with
  | create id img now =>
    exact storeInv_create maxS st id img now hmax (hop id rfl) ⟨hlen, hnd, hne⟩
  | get id => exact ⟨hlen, hnd, hne⟩
  | «end» id =>
    refine ⟨?_, nodup_mapKeys_mapDelete _ _ hnd, ?_⟩
    · simp only [applyOp, endSession]
      by_cases h : id ∈ mapKeys st
      · have := length_mapDelete_of_mem st id h
        omega
      · have h2 := mapKeys_mapDelete st id
        have : (mapKeys (mapDelete st id).2).length = (mapKeys st).length := by
          rw [h2, List.erase_of_not_mem h]
        simpa [mapKeys] using le_trans (le_of_eq this) (by simpa [mapKeys] using hlen)
    · intro k hk
      simp only [applyOp, endSession] at hk
      rw [mapKeys_mapDelete] at hk
      exact hne k (List.mem_of_mem_erase hk)
  | sweep now =>
    refine ⟨?_, nodup_sublist_keys_filter _ _ hnd, ?_⟩
    · exact le_trans (List.length_filter_le _ _) hlen
    · intro k hk
      exact hne k (mapKeys_filter_subset _ _ k hk)

theorem storeInv_foldl (maxS : Nat) (hmax : 1 ≤ maxS) :
    ∀ (ops : List SessionOp) (st : SessionMap),
      (∀ op ∈ ops, ∀ id, opCreatesId op id → id ≠ "") →
      StoreInv maxS st → StoreInv maxS (ops.foldl (applyOp maxS) st) := by
  intro ops
  induction ops with
  | nil => intro st _ h; simpa using h
  | cons op rest ih =>
    intro st hops h
    simp only [List.foldl_cons]
    exact ih _ (fun o ho => hops o (List.mem_cons_of_mem _ ho))
      (storeInv_applyOp maxS st op hmax
        (hops op (List.mem_cons_self _ _)) h)

theorem storeInv_runOps (maxS : Nat) (ops : List SessionOp)
    (hmax : 1 ≤ maxS)
    (hops : ∀ op ∈ ops, ∀ id, opCreatesId op id → id ≠ "") :
    StoreInv maxS (runOps maxS ops) :=
  storeInv_foldl maxS hmax ops [] hops (storeInv_empty maxS)

/-! ### Claim theorems about the session store -/

/-- Claim C1: the claim says `getSession(id)` made more than `SESSION_TTL`
after the session's creation returns `undefined` even before the sweep runs.
The code's `getSession` never compares times, so an entry older than the TTL
is still returned in full; only the periodic sweep would have removed it.
This theorem exhibits the failing input: a session created at time `0` is
still returned by `getSession` at time `SESSION_TTL + 1`, although its age
exceeds the TTL and the sweep at that same time would delete it. -/
theorem C1_getSession_returns_expired_entry :
    getSession (createSession 100 0 [] "sess" "img") "sess" =
      some ⟨"sess", "img", 0⟩ ∧
    SESSION_TTL < (SESSION_TTL + 1) - (0 : Int) ∧
    getSession (cleanupExpiredSessions (SESSION_TTL + 1)
      (createSession 100 0 [] "sess" "img")) "sess" = none := by
  refine ⟨rfl, by norm_num [SESSION_TTL], ?_⟩
  rfl

/-- Claim C5: from the empty store, any sequence of create/get/end/sweep
operations (with the ids the HTTP layer can actually create, i.e. nonempty)
keeps the store at ≤ `MAX_SESSIONS` entries; and a `createSession` on a store
at capacity evicts exactly the structurally oldest (first-inserted) surviving
entry — reads never reorder the map — before inserting the new session. -/
theorem C5_capacity_and_oldest_eviction (maxS : Nat) (ops : List SessionOp)
    (hmax : 1 ≤ maxS)
    (hops : ∀ op ∈ ops, ∀ id, opCreatesId op id → id ≠ "") :
    (runOps maxS ops).length ≤ maxS ∧
    (∀ (k0 : String) (v0 : Session) (rest : SessionMap) (id img : String)
        (now : Int),
        ((k0, v0) :: rest).length = maxS →
        (mapKeys ((k0, v0) :: rest)).Nodup →
        k0 ≠ "" →
        (k0 ≠ id → k0 ∉ mapKeys (createSession maxS now ((k0, v0) :: rest) id img)) ∧
        (∀ k ∈ mapKeys ((k0, v0) :: rest), k ≠ k0 →
          k ∈ mapKeys (createSession maxS now ((k0, v0) :: rest) id img)) ∧
        id ∈ mapKeys (createSession maxS now ((k0, v0) :: rest) id img)) ∧
    (∀ st q, applyOp maxS st (SessionOp.get q) = st) := by
  refine ⟨(storeInv_runOps maxS ops hmax hops).1, ?_, fun st q => rfl⟩
  intro k0 v0 rest id img now hlen hnd hk0
  have hful : maxS ≤ ((k0, v0) :: rest).length := le_of_eq hlen.symm
  have hkdel : mapKeys (mapDelete ((k0, v0) :: rest) k0).2 =
      mapKeys rest := by
    rw [mapKeys_mapDelete, mapKeys_cons, List.erase_cons_head]
  have hk0rest : k0 ∉ mapKeys rest := by
    rw [mapKeys_cons] at hnd
    exact (List.nodup_cons.mp hnd).1
  have hcreate : createSession maxS now ((k0, v0) :: rest) id img =
      mapSet (mapDelete ((k0, v0) :: rest) k0).2 id ⟨id, img, now⟩ := by
    unfold createSession
    simp only [if_pos hful, List.head?_cons, if_neg hk0]
  refine ⟨?_, ?_, ?_⟩
  · intro hne hmem
    rw [hcreate] at hmem
    by_cases hidmem : id ∈ mapKeys (mapDelete ((k0, v0) :: rest) k0).2
    · rw [mapKeys_mapSet_of_mem _ _ _ hidmem, hkdel] at hmem
      exact hk0rest hmem
    · rw [mapKeys_mapSet_of_not_mem _ _ _ hidmem, hkdel] at hmem
      rcases List.mem_append.mp hmem with hmem | hmem
      · exact hk0rest hmem
      · simp at hmem; exact hne hmem
  · intro k hkmem hkne
    rw [hcreate]
    have hkrest : k ∈ mapKeys (mapDelete ((k0, v0) :: rest) k0).2 := by
      rw [hkdel]
      rw [mapKeys_cons, List.mem_cons] at hkmem
      rcases hkmem with h | h
      · exact absurd h hkne
      · exact h
    exact mem_mapKeys_mapSet _ _ _ _ hkrest
  · rw [hcreate]
    exact mem_mapKeys_mapSet_self _ _ _

/-- Witness for C5 at a concrete input: capacity 2, three creations; the
store stays at ≤ 2 entries, and a creation at capacity evicts exactly the
first-inserted key `"a"` while keeping `"b"` and inserting `"c"`. -/
theorem C5_witness :
    (runOps 2 [.create "a" "i1" 0, .create "b" "i2" 1,
      .create "c" "i3" 2]).length ≤ 2 ∧
    ("a" ∉ mapKeys (createSession 2 2
        [("a", ⟨"a", "i1", 0⟩), ("b", ⟨"b", "i2", 1⟩)] "c" "i3")) ∧
    ("b" ∈ mapKeys (createSession 2 2
        [("a", ⟨"a", "i1", 0⟩), ("b", ⟨"b", "i2", 1⟩)] "c" "i3")) ∧
    ("c" ∈ mapKeys (createSession 2 2
        [("a", ⟨"a", "i1", 0⟩), ("b", ⟨"b", "i2", 1⟩)] "c" "i3")) := by
  have h := C5_capacity_and_oldest_eviction 2
    [.create "a" "i1" 0, .create "b" "i2" 1, .create "c" "i3" 2]
    (by norm_num)
    (by
      intro op hop id hid
      simp only [List.mem_cons, List.not_mem_nil, or_false] at hop
      rcases hop with rfl | rfl | rfl <;> (cases hid; decide))
  have h2 := (h.2.1 "a" ⟨"a", "i1", 0⟩ [("b", ⟨"b", "i2", 1⟩)] "c" "i3" 2
    (by decide) (by decide) (by decide))
  exact ⟨h.1, h2.1 (by decide), h2.2.1 "b" (by decide) (by decide), h2.2.2⟩

/-- Claim C8: `endSession(id)` reports prior existence (in particular
`false` when the id is absent — and it is a total function, it cannot
throw), while the HTTP `endSessionHandler` answers 200 / `success: true`
in every case, so ending a missing session is not an error externally. -/
theorem C8_end_missing_session_reports_false_but_http_success
    (st : SessionMap) (id : String) :
    ((endSession st id).1 = true ↔ id ∈ mapKeys st) ∧
    (id ∉ mapKeys st → (endSession st id).1 = false) ∧
    (endSessionHandler st id).1.status = 200 ∧
    (endSessionHandler st id).1.success = true := by
  refine ⟨mapDelete_fst_iff st id, ?_, rfl, rfl⟩
  intro h
  rcases hb : (endSession st id).1 with _ | _
  · rfl
  · exact absurd ((mapDelete_fst_iff st id).mp hb) h

/-- Witness for C8 at a concrete input: ending the missing id `"gone"` in a
one-entry store returns `false` from `endSession` yet HTTP 200/success. -/
theorem C8_witness :
    (endSession [("a", ⟨"a", "i", 0⟩)] "gone").1 = false ∧
    (endSessionHandler [("a", ⟨"a", "i", 0⟩)] "gone").1.status = 200 ∧
    (endSessionHandler [("a", ⟨"a", "i", 0⟩)] "gone").1.success = true := by
  have h := C8_end_missing_session_reports_false_but_http_success
    [("a", ⟨"a", "i", 0⟩)] "gone"
  exact ⟨h.2.1 (by decide), h.2.2.1, h.2.2.2⟩

/-- Claim C9: at capacity, `createSession` with an id that is already present
(but not the oldest entry) still evicts the oldest entry first, then
overwrites in place, leaving `MAX_SESSIONS - 1` entries — an unrelated
session is lost. -/
theorem C9_overwrite_at_capacity_still_evicts (maxS : Nat)
    (k0 : String) (v0 : Session) (rest : SessionMap) (id img : String)
    (now : Int)
    (hlen : ((k0, v0) :: rest).length = maxS)
    (hnd : (mapKeys ((k0, v0) :: rest)).Nodup)
    (hk0 : k0 ≠ "")
    (hidmem : id ∈ mapKeys ((k0, v0) :: rest))
    (hidne : id ≠ k0) :
    (createSession maxS now ((k0, v0) :: rest) id img).length = maxS - 1 ∧
    k0 ∉ mapKeys (createSession maxS now ((k0, v0) :: rest) id img) := by
  have hful : maxS ≤ ((k0, v0) :: rest).length := le_of_eq hlen.symm
  have hcreate : createSession maxS now ((k0, v0) :: rest) id img =
      mapSet (mapDelete ((k0, v0) :: rest) k0).2 id ⟨id, img, now⟩ := by
    unfold createSession
    simp only [if_pos hful, List.head?_cons, if_neg hk0]
  have hkdel : mapKeys (mapDelete ((k0, v0) :: rest) k0).2 = mapKeys rest := by
    rw [mapKeys_mapDelete, mapKeys_cons, List.erase_cons_head]
  have hk0rest : k0 ∉ mapKeys rest := by
    rw [mapKeys_cons] at hnd
    exact (List.nodup_cons.mp hnd).1
  have hidrest : id ∈ mapKeys rest := by
    rw [mapKeys_cons, List.mem_cons] at hidmem
    rcases hidmem with h | h
    · exact absurd h hidne
    · exact h
  have hidmem' : id ∈ mapKeys (mapDelete ((k0, v0) :: rest) k0).2 := by
    rw [hkdel]; exact hidrest
  constructor
  · rw [hcreate, length_mapSet_of_mem _ _ _ hidmem']
    have := length_mapDelete_of_mem ((k0, v0) :: rest) k0 (by simp [mapKeys_cons])
    omega
  · rw [hcreate]
    intro hmem
    rw [mapKeys_mapSet_of_mem _ _ _ hidmem', hkdel] at hmem
    exact hk0rest hmem

/-- Witness for C9 at a concrete input: capacity 2, store `[a, b]`,
re-creating `"b"`: the result has 1 entry and `"a"` is gone. -/
theorem C9_witness :
    (createSession 2 5 [("a", ⟨"a", "i1", 0⟩), ("b", ⟨"b", "i2", 1⟩)]
      "b" "i4").length = 1 ∧
    "a" ∉ mapKeys (createSession 2 5
      [("a", ⟨"a", "i1", 0⟩), ("b", ⟨"b", "i2", 1⟩)] "b" "i4") := by
  have h := C9_overwrite_at_capacity_still_evicts 2 "a" ⟨"a", "i1", 0⟩
    [("b", ⟨"b", "i2", 1⟩)] "b" "i4" 5 (by decide) (by decide) (by decide)
    (by decide) (by decide)
  exact h

/-! ## JavaScript values and `JSON.parse`

The extractors hand fragments to `JSON.parse` and inspect the resulting
JavaScript value with `typeof`, truthiness, the `in` operator, `String(...)`
and numeric comparisons.  JavaScript numbers are modelled as exact
rationals. -/

/-- A decoded JavaScript (JSON) value. -/
inductive Json where
  | null : Json
  | bool (b : Bool) : Json
  | num (q : ℚ) : Json
  | str (s : Str) : Json
  | arr (elems : List Json) : Json
  | obj (fields : List (Str × Json)) : Json

/-- The whitespace accepted by `JSON.parse` between tokens. -/
def isJsonWs (c : Char) : Bool :=
  c = ' ' || c = '\t' || c = '\n' || c = '\r'

/-- Drop inter-token whitespace. -/
def skipWs (s : Str) : Str := s.dropWhile isJsonWs

/-- Numeric value of a decimal digit list (most significant first). -/
def digitsToNat (ds : Str) : Nat :=
  ds.foldl (fun acc c => acc * 10 + (c.toNat - 48)) 0

/-- Decimal exponent part of a JSON number literal (`e`/`E`). -/
def parseExpPart (q : ℚ) (s : Str) : Option (ℚ × Str) :=
  match s with
  | 'e' :: t | 'E' :: t =>
    let (negE, t1) := match t with
      | '-' :: u => (true, u)
      | '+' :: u => (false, u)
      | _ => (false, t)
    let ds := t1.takeWhile Char.isDigit
    if ds.isEmpty then none
    else
      let e := digitsToNat ds
      some (if negE then q / 10 ^ e else q * 10 ^ e, t1.dropWhile Char.isDigit)
  | _ => some (q, s)

/-- Fractional part of a JSON number literal. -/
def parseFracPart (q : ℚ) (s : Str) : Option (ℚ × Str) :=
  match s with
  | '.' :: t =>
    let ds := t.takeWhile Char.isDigit
    if ds.isEmpty then none
    else parseExpPart (q + (digitsToNat ds : ℚ) / 10 ^ ds.length)
      (t.dropWhile Char.isDigit)
  | _ => parseExpPart q s

/-- A JSON number literal: optional minus, integer part without leading
zeros, optional fraction and exponent.  Yields its exact rational value. -/
def parseNumber (s : Str) : Option (ℚ × Str) :=
  let (neg, s1) := match s with
    | '-' :: t => (true, t)
    | _ => (false, s)
  let ds := s1.takeWhile Char.isDigit
  if ds.isEmpty then none
  else if 1 < ds.length ∧ ds.head? = some '0' then none
  else
    match parseFracPart (digitsToNat ds : ℚ) (s1.dropWhile Char.isDigit) with
    | some (q, r) => some (if neg then -q else q, r)
    | none => none

/-- Value of a hexadecimal digit. -/
def hexVal (c : Char) : Option Nat :=
  if '0' ≤ c ∧ c ≤ '9' then some (c.toNat - 48)
  else if 'a' ≤ c ∧ c ≤ 'f' then some (c.toNat - 87)
  else if 'A' ≤ c ∧ c ≤ 'F' then some (c.toNat - 55)
  else none

/-- Body of a JSON string literal after the opening quote, with escapes;
returns the decoded characters and the input after the closing quote. -/
def parseStrBody : Nat → Str → Option (Str × Str)
  | 0, _ => none
  | _, [] => none
  | fuel + 1, c :: t =>
    if c = '"' then some ([], t)
    else if c = '\\' then
      match t with
      | [] => none
      | e :: t2 =>
        let esc : Option (Char × Str) :=
          if e = '"' then some ('"', t2)
          else if e = '\\' then some ('\\', t2)
          else if e = '/' then some ('/', t2)
          else if e = 'n' then some ('\n', t2)
          else if e = 't' then some ('\t', t2)
          else if e = 'r' then some ('\r', t2)
          else if e = 'b' then some ('\x08', t2)
          else if e = 'f' then some ('\x0c', t2)
          else if e = 'u' then
            match t2 with
            | h1 :: h2 :: h3 :: h4 :: t3 =>
              match hexVal h1, hexVal h2, hexVal h3, hexVal h4 with
              | some a, some b, some c2, some d =>
                some (Char.ofNat (((a * 16 + b) * 16 + c2) * 16 + d), t3)
              | _, _, _, _ => none
            | _ => none
          else none
        match esc with
        | none => none
        | some (ch, rest) =>
          match parseStrBody fuel rest with
          | none => none
          | some (cs, r2) => some (ch :: cs, r2)
    else
      match parseStrBody fuel t with
      | none => none
      | some (cs, r2) => some (c :: cs, r2)

mutual

/-- Recursive-descent `JSON.parse`: one value, returning the rest of the
input.  Fuel bounds the nesting of recursive calls; every recursive level
consumes at least one character, so `length + 4` fuel always suffices. -/
def parseVal : Nat → Str → Option (Json × Str)
  | 0, _ => none
  | fuel + 1, s =>
    match skipWs s with
    | [] => none
    | '{' :: t =>
      (match skipWs t with
       | '}' :: r => some (Json.obj [], r)
       | t1 => match parsePairs fuel t1 with
         | some (fields, r) => some (Json.obj fields, r)
         | none => none)
    | '[' :: t =>
      (match skipWs t with
       | ']' :: r => some (Json.arr [], r)
       | t1 => match parseElems fuel t1 with
         | some (es, r) => some (Json.arr es, r)
         | none => none)
    | '"' :: t =>
      (match parseStrBody (t.length + 1) t with
       | some (cs, r) => some (Json.str cs, r)
       | none => none)
    | 't' :: 'r' :: 'u' :: 'e' :: t => some (Json.bool true, t)
    | 'f' :: 'a' :: 'l' :: 's' :: 'e' :: t => some (Json.bool false, t)
    | 'n' :: 'u' :: 'l' :: 'l' :: t => some (Json.null, t)
    | s1 =>
      match parseNumber s1 with
      | some (q, r) => some (Json.num q, r)
      | none => none

/-- Object members, positioned at the start of a key (whitespace already
skipped, at least one member present). -/
def parsePairs : Nat → Str → Option (List (Str × Json) × Str)
  | 0, _ => none
  | fuel + 1, s =>
    match s with
    | '"' :: t =>
      (match parseStrBody (t.length + 1) t with
       | none => none
       | some (key, r1) =>
         match skipWs r1 with
         | ':' :: r2 =>
           (match parseVal fuel r2 with
            | none => none
            | some (v, r3) =>
              match skipWs r3 with
              | ',' :: r4 =>
                (match parsePairs fuel (skipWs r4) with
                 | some (ps, r) => some ((key, v) :: ps, r)
                 | none => none)
              | '}' :: r4 => some ([(key, v)], r4)
              | _ => none)
         | _ => none)
    | _ => none

/-- Array elements, positioned at the start of an element (at least one
element present). -/
def parseElems : Nat → Str → Option (List Json × Str)
  | 0, _ => none
  | fuel + 1, s =>
    match parseVal fuel s with
    | none => none
    | some (v, r1) =>
      match skipWs r1 with
      | ',' :: r2 =>
        (match parseElems fuel r2 with
         | some (es, r) => some (v :: es, r)
         | none => none)
      | ']' :: r2 => some ([v], r2)
      | _ => none

end

/-- `JSON.parse`: a single value with only whitespace around it. -/
def jsonParse (s : Str) : Option Json :=
  match parseVal (s.length + 4) s with
  | some (v, r) => if skipWs r = [] then some v else none
  | none => none

/-! ### JavaScript operators on decoded values -/

/-- Object property lookup; `JSON.parse` keeps the last of duplicate keys. -/
def objLookup (fields : List (Str × Json)) (key : Str) : Option Json :=
  match fields with
  | [] => none
  | (k, v) :: rest =>
    match objLookup rest key with
    | some r => some r
    | none => if k = key then some v else none

/-- JavaScript property access `v.key` / `"key" in v`; `none` plays the role
of `undefined` (arrays and primitives have none of the accessed keys). -/
def jsGetField (v : Json) (key : String) : Option Json :=
  match v with
  | .obj fields => objLookup fields key.toList
  | _ => none

/-- `typeof v === "object"` (true for objects, arrays and `null`). -/
def typeofIsObject : Json → Bool
  | .null => true
  | .arr _ => true
  | .obj _ => true
  | _ => false

/-- JavaScript truthiness. -/
def truthy : Json → Bool
  | .null => false
  | .bool b => b
  | .num q => !(decide (q = 0))
  | .str s => !s.isEmpty
  | .arr _ => true
  | .obj _ => true

/-- Whitespace removed by `String.prototype.trim`. -/
def isTrimWs (c : Char) : Bool :=
  c = ' ' || c = '\t' || c = '\n' || c = '\r' || c = '\x0b' || c = '\x0c'

/-- `String.prototype.trim`. -/
def jsTrim (s : Str) : Str :=
  ((s.dropWhile isTrimWs).reverse.dropWhile isTrimWs).reverse

/-- Decimal digits of a natural number. -/
def natToDigits (n : Nat) : Str :=
  if h : n < 10 then [Char.ofNat (48 + n)]
  else natToDigits (n / 10) ++ [Char.ofNat (48 + n % 10)]
termination_by n
decreasing_by exact Nat.div_lt_self (by omega) (by omega)

/-- Decimal representation of an integer. -/
def intToStr (i : Int) : Str :=
  if i < 0 then '-' :: natToDigits i.natAbs else natToDigits i.natAbs

/-- Smallest positive `k` with `den ∣ 10 ^ k` (denominators arising from
JSON decimal literals divide a power of ten). -/
def decScale (den : Nat) : Option Nat :=
  (List.range 401).find? (fun k => decide (0 < k) && decide (10 ^ k % den = 0))

/-- Fractional decimal digits of a nonnegative rational (shortest exact
form, matching how JavaScript prints numbers that are exact decimals). -/
def fracDigits (q : ℚ) : Str :=
  match decScale q.den with
  | none => []
  | some k =>
    let scaled := q.num.natAbs * 10 ^ k / q.den % 10 ^ k
    let ds := natToDigits scaled
    List.replicate (k - ds.length) '0' ++ ds

/-- `String(n)` for a JavaScript number that is an exact decimal. -/
def ratToStr (q : ℚ) : Str :=
  if q.den = 1 then intToStr q.num
  else
    (if q.num < 0 then ['-'] else []) ++
      natToDigits (q.num.natAbs / q.den) ++ '.' :: fracDigits q

mutual

/-- `String(v)` on a decoded value.  In the embedded code it is only applied
to strings and numbers (the ranking id after validation, and sanitized
product strings). -/
def jsToString : Json → Str
  | .null => "null".toList
  | .bool b => if b then "true".toList else "false".toList
  | .num q => ratToStr q
  | .str s => s
  | .arr es => jsToStringElems es
  | .obj _ => "[object Object]".toList

/-- `Array.prototype.toString`: elements joined by commas, `null` rendered
empty. -/
def jsToStringElems : List Json → Str
  | [] => []
  | [e] => jsElemStr e
  | e :: es => jsElemStr e ++ ',' :: jsToStringElems es

/-- One array element as rendered by `Array.prototype.join`. -/
def jsElemStr : Json → Str
  | .null => []
  | e => jsToString e

end

/-! ## Incremental ranking extractor
(`src/services/partial-ranking-parser.ts`) -/

/-- `ProductRanking` from `src/types/analyze.ts`: string id (built with
`String(id).trim()`), similarity score and rank (JavaScript numbers). -/
structure ProductRanking where
  id : Str
  similarityScore : ℚ
  rank : ℚ
deriving DecidableEq

/-- Computable `a <= b` on JavaScript numbers (kernel-reducible form). -/
def qle (a b : ℚ) : Bool := !(decide (b < a))

theorem qle_iff (a b : ℚ) : qle a b = true ↔ a ≤ b := by
  simp [qle, not_lt]

/-- `isValidRanking`: a truthy `object` whose `id` is a string or a number,
whose `similarityScore` is a number in `[0, 100]` and whose `rank` is a
number in `[1, 10]` — no integrality test appears in the code. -/
def isValidRanking (v : Json) : Bool :=
  truthy v && typeofIsObject v &&
  (match jsGetField v "id" with
   | some (.str _) => true
   | some (.num _) => true
   | _ => false) &&
  (match jsGetField v "similarityScore" with
   | some (.num q) => qle 0 q && qle q 100
   | _ => false) &&
  (match jsGetField v "rank" with
   | some (.num q) => qle 1 q && qle q 10
   | _ => false)

/-- `parseRankingLine`: `JSON.parse` the line (decode failure → `null`),
validate, then build the candidate with `String(id).trim()`,
`Number(similarityScore)` and `Number(rank)` (both already numbers). -/
def parseRankingLine (line : Str) : Option ProductRanking :=
  match jsonParse line with
  | none => none
  | some v =>
    if isValidRanking v then
      some { id := jsTrim (jsToString ((jsGetField v "id").getD Json.null)),
             similarityScore :=
               match jsGetField v "similarityScore" with
               | some (.num q) => q
               | _ => 0,
             rank :=
               match jsGetField v "rank" with
               | some (.num q) => q
               | _ => 0 }
    else none

/-- Extractor state: the retained partial line and the set of already
emitted ids (`parsedRankings`), kept as a list used only for membership. -/
structure RankState where
  buffer : Str
  parsedRankings : List Str

/-- `String.prototype.split("\n")` (always at least one piece). -/
def splitNl : Str → List Str
  | [] => [[]]
  | c :: cs =>
    if c = '\n' then [] :: splitNl cs
    else
      match splitNl cs with
      | [] => [[c]]
      | l :: ls => (c :: l) :: ls

/-- The per-line body shared by `parse`'s loop and by `flush`: trim, skip
empty lines, decode, and emit only ids not already seen. -/
def processLine (seen : List Str) (line : Str) :
    List ProductRanking × List Str :=
  let t := jsTrim line
  if t.isEmpty then ([], seen)
  else
    match parseRankingLine t with
    | some r => if r.id ∈ seen then ([], seen) else ([r], r.id :: seen)
    | none => ([], seen)

/-- `processLine` folded over a list of complete lines. -/
def processLines (seen : List Str) : List Str → List ProductRanking × List Str
  | [] => ([], seen)
  | l :: ls =>
    let p := processLine seen l
    let p2 := processLines p.2 ls
    (p.1 ++ p2.1, p2.2)

/-- `parse(partialResponse)`: append to the buffer, split on newlines, keep
the (possibly incomplete) final piece as the new buffer, and process every
complete line. -/
def rankParse (st : RankState) (fragment : Str) :
    List ProductRanking × RankState :=
  let lines := splitNl (st.buffer ++ fragment)
  let p := processLines st.parsedRankings lines.dropLast
  (p.1, ⟨(lines.getLast?).getD [], p.2⟩)

/-- `flush()`: process the whole remaining buffer as one final line and
clear the buffer. -/
def rankFlush (st : RankState) : List ProductRanking × RankState :=
  let p := processLine st.parsedRankings st.buffer
  (p.1, ⟨[], p.2⟩)

/-- All candidates one extractor instance emits over a sequence of `parse`
calls followed by a final `flush`. -/
def rankRun (st : RankState) : List Str → List ProductRanking
  | [] => (rankFlush st).1
  | c :: cs => (rankParse st c).1 ++ rankRun (rankParse st c).2 cs

/-- Reference semantics: all lines of the whole stream processed in order
with deduplication, starting from no seen ids. -/
def processAll (t : Str) : List ProductRanking :=
  (processLines [] (splitNl t)).1

/-! ### Fragmentation lemmas for the line splitter -/

/-- Proof-side view of `splitNl`: the complete (newline-terminated) lines
and the trailing piece after the last newline. -/
def splitAcc : Str → List Str × Str
  | [] => ([], [])
  | c :: cs =>
    if c = '\n' then ([] :: (splitAcc cs).1, (splitAcc cs).2)
    else
      match (splitAcc cs).1 with
      | [] => ([], c :: (splitAcc cs).2)
      | l :: ls => ((c :: l) :: ls, (splitAcc cs).2)

theorem splitAcc_nil : splitAcc [] = ([], []) := rfl

theorem splitAcc_cons_nl (cs : Str) :
    splitAcc ('\n' :: cs) = ([] :: (splitAcc cs).1, (splitAcc cs).2) := by
  simp [splitAcc]

theorem splitAcc_cons_of_fst_nil {c : Char} {cs : Str} (hc : c ≠ '\n')
    (h : (splitAcc cs).1 = []) :
    splitAcc (c :: cs) = ([], c :: (splitAcc cs).2) := by
  simp [splitAcc, hc, h]

theorem splitAcc_cons_of_fst_cons {c : Char} {cs : Str} {l : Str}
    {ls : List Str} (hc : c ≠ '\n') (h : (splitAcc cs).1 = l :: ls) :
    splitAcc (c :: cs) = ((c :: l) :: ls, (splitAcc cs).2) := by
  simp [splitAcc, hc, h]

theorem splitNl_eq_splitAcc (s : Str) :
    splitNl s = (splitAcc s).1 ++ [(splitAcc s).2] := by
  induction s with
  | nil => rfl
  | cons c cs ih =>
    by_cases hc : c = '\n'
    · subst hc
      rw [splitAcc_cons_nl]
      simp [splitNl, ih]
    · rcases h1 : (splitAcc cs).1 with _ | ⟨l, ls⟩
      · have hcs : splitNl cs = [(splitAcc cs).2] := by rw [ih, h1]; rfl
        rw [splitAcc_cons_of_fst_nil hc h1]
        simp [splitNl, hc, hcs]
      · have hcs : splitNl cs = (l :: ls) ++ [(splitAcc cs).2] := by rw [ih, h1]
        rw [splitAcc_cons_of_fst_cons hc h1]
        simp [splitNl, hc, hcs]

theorem splitAcc_append (a b : Str) :
    (splitAcc (a ++ b)).1 =
      (splitAcc a).1 ++ (splitAcc ((splitAcc a).2 ++ b)).1 ∧
    (splitAcc (a ++ b)).2 = (splitAcc ((splitAcc a).2 ++ b)).2 := by
  induction a with
  | nil => simp [splitAcc_nil]
  | cons c a' ih =>
    by_cases hc : c = '\n'
    · subst hc
      rw [List.cons_append, splitAcc_cons_nl, splitAcc_cons_nl]
      refine ⟨?_, ?_⟩
      · simp [ih.1]
      · simp [ih.2]
    · rcases h1 : (splitAcc a').1 with _ | ⟨l, ls⟩
      · have h2 : (splitAcc (a' ++ b)).1 = (splitAcc ((splitAcc a').2 ++ b)).1 := by
          rw [ih.1, h1, List.nil_append]
        have h3 : (splitAcc (a' ++ b)).2 = (splitAcc ((splitAcc a').2 ++ b)).2 := ih.2
        rw [splitAcc_cons_of_fst_nil hc h1]
        have hLHS : splitAcc ((c :: a') ++ b) = splitAcc (c :: (a' ++ b)) := by
          rw [List.cons_append]
        have hRHS : splitAcc ((c :: (splitAcc a').2) ++ b) =
            splitAcc (c :: ((splitAcc a').2 ++ b)) := by
          rw [List.cons_append]
        rcases h4 : (splitAcc ((splitAcc a').2 ++ b)).1 with _ | ⟨m, ms⟩
        · rw [hLHS, hRHS, splitAcc_cons_of_fst_nil hc (h2.trans h4),
            splitAcc_cons_of_fst_nil hc h4]
          exact ⟨by simp [h4], by simp [h3]⟩
        · rw [hLHS, hRHS, splitAcc_cons_of_fst_cons hc (h2.trans h4),
            splitAcc_cons_of_fst_cons hc h4]
          exact ⟨by simp [h4], by simp [h3]⟩
      · have h2 : (splitAcc (a' ++ b)).1 =
            l :: (ls ++ (splitAcc ((splitAcc a').2 ++ b)).1) := by
          rw [ih.1, h1, List.cons_append]
        have h3 : (splitAcc (a' ++ b)).2 = (splitAcc ((splitAcc a').2 ++ b)).2 := ih.2
        have hLHS : splitAcc ((c :: a') ++ b) = splitAcc (c :: (a' ++ b)) := by
          rw [List.cons_append]
        rw [hLHS, splitAcc_cons_of_fst_cons hc h2,
          splitAcc_cons_of_fst_cons hc h1]
        exact ⟨by simp, by simp [h3]⟩

theorem processLines_append (seen : List Str) (l1 l2 : List Str) :
    processLines seen (l1 ++ l2) =
      ((processLines seen l1).1 ++ (processLines (processLines seen l1).2 l2).1,
        (processLines (processLines seen l1).2 l2).2) := by
  induction l1 generalizing seen with
  | nil => simp [processLines]
  | cons l ls ih => simp [processLines, ih]

/-- Feeding any fragment sequence to one extractor instance (all `parse`
calls, then `flush`) emits exactly the deduplicated valid lines of the
concatenated stream, processed in order. -/
theorem rankRun_eq_processAll (chunks : List Str) :
    rankRun ⟨[], []⟩ chunks = processAll (chunks.foldr (· ++ ·) []) := by
  have key : ∀ (cs : List Str) (t : Str),
      (processLines [] (splitAcc t).1).1 ++
        rankRun ⟨(splitAcc t).2, (processLines [] (splitAcc t).1).2⟩ cs =
      processAll (t ++ cs.foldr (· ++ ·) []) := by
    intro cs
    induction cs with
    | nil =>
      intro t
      simp only [rankRun, rankFlush, processAll, List.foldr_nil, List.append_nil]
      rw [splitNl_eq_splitAcc, processLines_append]
      simp [processLines]
    | cons c cs' ih =>
      intro t
      have hsplit := splitAcc_append t c
      have hparse : rankParse ⟨(splitAcc t).2, (processLines [] (splitAcc t).1).2⟩ c =
          ((processLines (processLines [] (splitAcc t).1).2
              (splitAcc ((splitAcc t).2 ++ c)).1).1,
            ⟨(splitAcc (t ++ c)).2,
              (processLines (processLines [] (splitAcc t).1).2
                (splitAcc ((splitAcc t).2 ++ c)).1).2⟩) := by
        simp only [rankParse, splitNl_eq_splitAcc, List.dropLast_concat,
          List.getLast?_concat, Option.getD_some, hsplit.2]
      have hPL : processLines [] (splitAcc (t ++ c)).1 =
          ((processLines [] (splitAcc t).1).1 ++
            (processLines (processLines [] (splitAcc t).1).2
              (splitAcc ((splitAcc t).2 ++ c)).1).1,
            (processLines (processLines [] (splitAcc t).1).2
              (splitAcc ((splitAcc t).2 ++ c)).1).2) := by
        rw [hsplit.1, processLines_append]
      calc (processLines [] (splitAcc t).1).1 ++
            rankRun ⟨(splitAcc t).2, (processLines [] (splitAcc t).1).2⟩ (c :: cs')
          = (processLines [] (splitAcc (t ++ c)).1).1 ++
              rankRun ⟨(splitAcc (t ++ c)).2,
                (processLines [] (splitAcc (t ++ c)).1).2⟩ cs' := by
            simp only [rankRun, hparse, hPL, List.append_assoc]
        _ = processAll ((t ++ c) ++ cs'.foldr (· ++ ·) []) := ih (t ++ c)
        _ = processAll (t ++ (c :: cs').foldr (· ++ ·) []) := by
            rw [List.append_assoc]; rfl
  have h0 := key chunks []
  simpa [splitAcc, processLines] using h0

/-! ### Per-line behaviour and deduplication -/

theorem parseRankingLine_nil : parseRankingLine [] = none := rfl

/-- `processLine` either emits nothing and keeps `seen`, or emits a single
fresh candidate and records its id. -/
theorem processLine_cases (seen : List Str) (l : Str) :
    processLine seen l = ([], seen) ∨
    ∃ r, parseRankingLine (jsTrim l) = some r ∧ r.id ∉ seen ∧
      processLine seen l = ([r], r.id :: seen) := by
  unfold processLine
  by_cases h1 : (jsTrim l).isEmpty
  · left; simp [h1]
  · rcases h2 : parseRankingLine (jsTrim l) with _ | r
    · left; simp [h1, h2]
    · by_cases h3 : r.id ∈ seen
      · left; simp [h1, h2, h3]
      · right; exact ⟨r, rfl, h3, by simp [h1, h2, h3]⟩

/-- Across any line list, emitted ids are nodup, fresh with respect to the
starting `seen` set, and recorded into the final `seen` set. -/
theorem processLines_nodup (ls : List Str) : ∀ seen : List Str,
    ((processLines seen ls).1.map (·.id)).Nodup ∧
    (∀ r ∈ (processLines seen ls).1, r.id ∉ seen) ∧
    (∀ s ∈ seen, s ∈ (processLines seen ls).2) := by
  induction ls with
  | nil => intro seen; refine ⟨by simp [processLines], by simp [processLines], ?_⟩
           simp [processLines]
  | cons l ls ih =>
    intro seen
    rcases processLine_cases seen l with h | ⟨r, _, hfresh, h⟩
    · have := ih seen
      simp only [processLines, h]
      exact ⟨by simpa using this.1, by simpa using this.2.1, by simpa using this.2.2⟩
    · have hrec := ih (r.id :: seen)
      simp only [processLines, h]
      refine ⟨?_, ?_, ?_⟩
      · simp only [List.map_append, List.map_cons, List.map_nil]
        rw [List.singleton_append, List.nodup_cons]
        refine ⟨?_, hrec.1⟩
        intro hmem
        rcases List.mem_map.mp hmem with ⟨r', hr', hid⟩
        exact hrec.2.1 r' hr' (by rw [hid]; exact List.mem_cons_self _ _)
      · intro r' hr'
        rcases List.mem_append.mp hr' with h' | h'
        · simp at h'; subst h'; exact hfresh
        · intro hm
          exact hrec.2.1 r' h' (List.mem_cons_of_mem _ hm)
      · intro s hs
        exact hrec.2.2 s (List.mem_cons_of_mem _ hs)

/-- The candidates of the individually well-formed lines of a stream. -/
def lineCandidates (ls : List Str) : List ProductRanking :=
  ls.filterMap (fun l => parseRankingLine (jsTrim l))

/-- When the well-formed lines carry pairwise-distinct ids, deduplication
never fires: processing emits one candidate per well-formed line. -/
theorem processLines_of_nodup_ids (ls : List Str) : ∀ seen : List Str,
    ((lineCandidates ls).map (·.id)).Nodup →
    (∀ r ∈ lineCandidates ls, r.id ∉ seen) →
    (processLines seen ls).1 = lineCandidates ls := by
  induction ls with
  | nil => intro seen _ _; rfl
  | cons l ls ih =>
    intro seen hnd hdisj
    rcases h2 : parseRankingLine (jsTrim l) with _ | r
    · have hLC : lineCandidates (l :: ls) = lineCandidates ls := by
        simp [lineCandidates, h2]
      have hline : processLine seen l = ([], seen) := by
        rcases processLine_cases seen l with h | ⟨r, hr, _, _⟩
        · exact h
        · rw [h2] at hr; cases hr
      rw [hLC] at hnd hdisj
      simp only [processLines, hline]
      rw [ih seen hnd hdisj]
      rw [hLC]
      simp
    · have hLC : lineCandidates (l :: ls) = r :: lineCandidates ls := by
        simp [lineCandidates, h2]
      rw [hLC] at hnd hdisj
      have hfresh : r.id ∉ seen := hdisj r (List.mem_cons_self _ _)
      have hlt : ¬(jsTrim l).isEmpty := by
        intro he
        have : jsTrim l = [] := by simpa [List.isEmpty_iff] using he
        rw [this, parseRankingLine_nil] at h2
        cases h2
      have hline : processLine seen l = ([r], r.id :: seen) := by
        unfold processLine
        simp [hlt, h2, hfresh]
      simp only [processLines, hline]
      simp only [List.map_cons] at hnd
      rw [List.nodup_cons] at hnd
      have hdisj' : ∀ r' ∈ lineCandidates ls, r'.id ∉ (r.id :: seen) := by
        intro r' hr' hmem
        rcases List.mem_cons.mp hmem with h' | h'
        · exact hnd.1 (h' ▸ List.mem_map_of_mem (·.id) hr')
        · exact hdisj r' (List.mem_cons_of_mem _ hr') h'
      rw [ih (r.id :: seen) hnd.2 hdisj']
      rw [hLC]
      simp

/-! ## Ranking orchestrator (`rankProductSimilarityStreaming`)

The streaming loop of the Gemini service's ranking mode: each nonempty
chunk is fed to the extractor, every returned candidate is forwarded while
fewer than 10 have been forwarded, the loop breaks once 10 are reached, and
after the loop the extractor is flushed with the same cap. -/

/-- The `rankings.forEach(...)` forwarding loop: one increment per candidate
while the count is below 10. -/
def forwardCap (count : Nat) (rs : List ProductRanking) : Nat :=
  rs.foldl (fun c _ => if c < 10 then c + 1 else c) count

/-- The `for await` chunk loop with its `break` once 10 candidates have been
forwarded; empty chunk texts are skipped (`if (chunkText)`). -/
def runRankingLoop : RankState → Nat → List Str → RankState × Nat
  | st, count, [] => (st, count)
  | st, count, c :: cs =>
    if c.isEmpty then runRankingLoop st count cs
    else
      let p := rankParse st c
      let count' := forwardCap count p.1
      if 10 ≤ count' then (p.2, count')
      else runRankingLoop p.2 count' cs

/-- The whole ranking orchestration: run the loop from a fresh extractor,
then `flush()` and forward the remainder under the same 10-item cap;
returns how many candidates were forwarded via `onRanking`. -/
def runRankingStream (chunks : List Str) : Nat :=
  let r := runRankingLoop ⟨[], []⟩ 0 chunks
  forwardCap r.2 (rankFlush r.1).1

/-- The candidates the extractor would make available to the loop (without
the cap): parses of the nonempty chunks, then the flush. -/
def orchAvail (st : RankState) : List Str → List ProductRanking
  | [] => (rankFlush st).1
  | c :: cs =>
    if c.isEmpty then orchAvail st cs
    else (rankParse st c).1 ++ orchAvail (rankParse st c).2 cs

theorem forwardCap_eq (rs : List ProductRanking) :
    ∀ count : Nat, count ≤ 10 →
      forwardCap count rs = min 10 (count + rs.length) := by
  induction rs with
  | nil => intro count h; simp [forwardCap]; omega
  | cons r rs ih =>
    intro count h
    by_cases hlt : count < 10
    · have : forwardCap count (r :: rs) = forwardCap (count + 1) rs := by
        simp [forwardCap, hlt]
      rw [this, ih (count + 1) (by omega)]
      simp only [List.length_cons]
      omega
    · have hc : count = 10 := by omega
      have : forwardCap count (r :: rs) = forwardCap count rs := by
        simp [forwardCap, hlt]
      rw [this, ih count h]
      simp only [List.length_cons]
      omega

theorem runRankingLoop_count (cs : List Str) :
    ∀ (st : RankState) (count : Nat), count ≤ 10 →
      forwardCap (runRankingLoop st count cs).2
          (rankFlush (runRankingLoop st count cs).1).1 =
        min 10 (count + (orchAvail st cs).length) := by
  induction cs with
  | nil =>
    intro st count h
    simp only [runRankingLoop, orchAvail]
    exact forwardCap_eq _ count h
  | cons c cs ih =>
    intro st count h
    by_cases he : c.isEmpty
    · simp only [runRankingLoop, orchAvail, if_pos he]
      exact ih st count h
    · simp only [runRankingLoop, orchAvail, if_neg he]
      have hcap : forwardCap count (rankParse st c).1 =
          min 10 (count + (rankParse st c).1.length) := forwardCap_eq _ count h
      by_cases h10 : 10 ≤ forwardCap count (rankParse st c).1
      · simp only [if_pos h10]
        have h10' : forwardCap count (rankParse st c).1 = 10 := by omega
        rw [h10']
        have : forwardCap 10 (rankFlush (rankParse st c).2).1 = 10 := by
          rw [forwardCap_eq _ 10 (le_refl 10)]; omega
        rw [this]
        rw [hcap] at h10'
        simp only [List.length_append]
        omega
      · simp only [if_neg h10]
        rw [ih (rankParse st c).2 (forwardCap count (rankParse st c).1) (by omega)]
        rw [hcap] at h10 ⊢
        simp only [List.length_append]
        omega

theorem orchAvail_eq_rankRun (cs : List Str) : ∀ st : RankState,
    orchAvail st cs = rankRun st (cs.filter (fun c => !c.isEmpty)) := by
  induction cs with
  | nil => intro st; rfl
  | cons c cs ih =>
    intro st
    by_cases he : c.isEmpty
    · simp [orchAvail, he, ih]
    · simp [orchAvail, he, ih, rankRun]

theorem concat_filter_nonempty (cs : List Str) :
    (cs.filter (fun c => !c.isEmpty)).foldr (· ++ ·) [] =
      cs.foldr (· ++ ·) [] := by
  induction cs with
  | nil => rfl
  | cons c cs ih =>
    by_cases he : c.isEmpty
    · have : c = [] := by simpa [List.isEmpty_iff] using he
      simp [List.filter_cons, he, ih, this]
    · simp [List.filter_cons, he, ih]

/-- What the orchestrator can forward, end to end: the deduplicated valid
lines of the whole concatenated stream. -/
theorem orchAvail_init (chunks : List Str) :
    orchAvail ⟨[], []⟩ chunks = processAll (chunks.foldr (· ++ ·) []) := by
  rw [orchAvail_eq_rankRun, rankRun_eq_processAll, concat_filter_nonempty]

theorem runRankingStream_min (chunks : List Str) :
    runRankingStream chunks =
      min 10 (processAll (chunks.foldr (· ++ ·) [])).length := by
  have h := runRankingLoop_count chunks ⟨[], []⟩ 0 (by omega)
  rw [orchAvail_init] at h
  simpa [runRankingStream] using h

/-- Claim C3: in ranking mode the orchestrator stops consuming once 10
candidates have been forwarded, flushes the extractor after the loop under
the same cap, and therefore forwards exactly 10 candidates whenever the
stream holds more than 10 well-formed ranking lines with pairwise-distinct
ids; it never forwards more than 10 on any stream. -/
theorem C3_exactly_ten_forwarded (chunks : List Str)
    (hnd : ((lineCandidates (splitNl (chunks.foldr (· ++ ·) []))).map
      (·.id)).Nodup)
    (hN : 10 < (lineCandidates (splitNl (chunks.foldr (· ++ ·) []))).length) :
    runRankingStream chunks = 10 ∧
    ∀ cs : List Str, runRankingStream cs ≤ 10 := by
  constructor
  · rw [runRankingStream_min]
    have hPA : processAll (chunks.foldr (· ++ ·) []) =
        lineCandidates (splitNl (chunks.foldr (· ++ ·) [])) := by
      unfold processAll
      exact processLines_of_nodup_ids _ [] hnd (by simp)
    rw [hPA]
    omega
  · intro cs
    rw [runRankingStream_min]
    omega

/-- Witness for C3: one chunk holding 11 newline-terminated well-formed
ranking lines with distinct ids forwards exactly 10 candidates. -/
theorem C3_witness :
    runRankingStream
      [("\x7b\"id\":1,\"similarityScore\":50,\"rank\":1\x7d\n" ++
        "\x7b\"id\":2,\"similarityScore\":50,\"rank\":1\x7d\n" ++
        "\x7b\"id\":3,\"similarityScore\":50,\"rank\":1\x7d\n" ++
        "\x7b\"id\":4,\"similarityScore\":50,\"rank\":1\x7d\n" ++
        "\x7b\"id\":5,\"similarityScore\":50,\"rank\":1\x7d\n" ++
        "\x7b\"id\":6,\"similarityScore\":50,\"rank\":1\x7d\n" ++
        "\x7b\"id\":7,\"similarityScore\":50,\"rank\":1\x7d\n" ++
        "\x7b\"id\":8,\"similarityScore\":50,\"rank\":1\x7d\n" ++
        "\x7b\"id\":9,\"similarityScore\":50,\"rank\":1\x7d\n" ++
        "\x7b\"id\":10,\"similarityScore\":50,\"rank\":1\x7d\n" ++
        "\x7b\"id\":11,\"similarityScore\":50,\"rank\":1\x7d\n").toList] = 10 :=
  (C3_exactly_ten_forwarded _
    (by with_unfolding_all decide) (by with_unfolding_all decide)).1

/-! ### Acceptance conditions of the ranking extractor (claim C7) -/

/-- Semantic reading of `isValidRanking`. -/
theorem isValidRanking_iff (v : Json) :
    isValidRanking v = true ↔
      truthy v = true ∧ typeofIsObject v = true ∧
      ((∃ s, jsGetField v "id" = some (.str s)) ∨
        (∃ q, jsGetField v "id" = some (.num q))) ∧
      (∃ q, jsGetField v "similarityScore" = some (.num q) ∧
        0 ≤ q ∧ q ≤ 100) ∧
      (∃ q, jsGetField v "rank" = some (.num q) ∧ 1 ≤ q ∧ q ≤ 10) := by
  unfold isValidRanking
  simp only [Bool.and_eq_true]
  constructor
  · rintro ⟨⟨⟨⟨h1, h2⟩, h3⟩, h4⟩, h5⟩
    refine ⟨h1, h2, ?_, ?_, ?_⟩
    · rcases hid : jsGetField v "id" with _ | idv
      · rw [hid] at h3; cases h3
      · rcases idv with _ | b | q | s | es | fs <;> rw [hid] at h3 <;>
          first
            | (left; exact ⟨_, rfl⟩)
            | (right; exact ⟨_, rfl⟩)
            | cases h3
    · rcases hs : jsGetField v "similarityScore" with _ | sv
      · rw [hs] at h4; cases h4
      · rcases sv with _ | b | q | s | es | fs <;> rw [hs] at h4 <;>
          try cases h4
        rw [Bool.and_eq_true, qle_iff, qle_iff] at h4
        exact ⟨q, rfl, h4.1, h4.2⟩
    · rcases hr : jsGetField v "rank" with _ | rv
      · rw [hr] at h5; cases h5
      · rcases rv with _ | b | q | s | es | fs <;> rw [hr] at h5 <;>
          try cases h5
        rw [Bool.and_eq_true, qle_iff, qle_iff] at h5
        exact ⟨q, rfl, h5.1, h5.2⟩
  · rintro ⟨h1, h2, h3, ⟨qs, hqs, hqs0, hqs100⟩, ⟨qr, hqr, hqr1, hqr10⟩⟩
    refine ⟨⟨⟨⟨h1, h2⟩, ?_⟩, ?_⟩, ?_⟩
    · rcases h3 with ⟨s, hid⟩ | ⟨q, hid⟩ <;> rw [hid]
    · rw [hqs, Bool.and_eq_true, qle_iff, qle_iff]
      exact ⟨hqs0, hqs100⟩
    · rw [hqr, Bool.and_eq_true, qle_iff, qle_iff]
      exact ⟨hqr1, hqr10⟩

/-- Claim C7 (amended): a decoded line is accepted, and produces a
candidate, exactly when it is a truthy object whose `id` is a string or a
number, whose `similarityScore` is a *number* in `[0, 100]` and whose
`rank` is a *number* in `[1, 10]` — integrality is not required; every
other line yields no candidate. -/
theorem C7_acceptance_conditions (line : Str) :
    (parseRankingLine line).isSome = true ↔
      ∃ v, jsonParse line = some v ∧
        truthy v = true ∧ typeofIsObject v = true ∧
        ((∃ s, jsGetField v "id" = some (.str s)) ∨
          (∃ q, jsGetField v "id" = some (.num q))) ∧
        (∃ q, jsGetField v "similarityScore" = some (.num q) ∧
          0 ≤ q ∧ q ≤ 100) ∧
        (∃ q, jsGetField v "rank" = some (.num q) ∧ 1 ≤ q ∧ q ≤ 10) := by
  unfold parseRankingLine
  rcases hp : jsonParse line with _ | v
  · simp
  · by_cases hv : isValidRanking v = true
    · simp only [hv, if_true, Option.isSome_some, true_iff]
      exact ⟨v, rfl, (isValidRanking_iff v).mp hv⟩
    · simp only [Bool.not_eq_true] at hv
      simp only [hv, Bool.false_eq_true, if_false, Option.isSome_none,
        false_iff]
      rintro ⟨v', hv', hcond⟩
      injection hv' with hv2
      subst hv2
      have hvt := (isValidRanking_iff v).mpr hcond
      rw [hv] at hvt
      exact Bool.false_ne_true hvt

/-- Claim C7 counterexample: the line
`{"id":"a","similarityScore":85,"rank":2.5}` carries a non-integer rank yet
is accepted and produces a candidate, contradicting the claim that only
integer ranks in `[1,10]` are accepted. -/
theorem C7_noninteger_rank_accepted :
    parseRankingLine
        "\x7b\"id\":\"a\",\"similarityScore\":85,\"rank\":2.5\x7d".toList =
      some ⟨"a".toList, 85, 5 / 2⟩ ∧
    ((5 : ℚ) / 2).den = 2 := by
  constructor
  · with_unfolding_all decide
  · with_unfolding_all decide

/-! ### Identifier normalization and deduplication (claim C10) -/

theorem splitAcc_no_nl (s : Str) (h : '\n' ∉ s) : splitAcc s = ([], s) := by
  induction s with
  | nil => rfl
  | cons c cs ih =>
    rw [List.mem_cons] at h
    push_neg at h
    have hcs := ih h.2
    rw [splitAcc_cons_of_fst_nil h.1.symm (by rw [hcs])]
    rw [hcs]

theorem splitAcc_line_append (p rest : Str) (h : '\n' ∉ p) :
    splitAcc (p ++ '\n' :: rest) =
      (p :: (splitAcc rest).1, (splitAcc rest).2) := by
  induction p with
  | nil => simp [splitAcc_cons_nl]
  | cons c p' ih =>
    rw [List.mem_cons] at h
    push_neg at h
    have hih := ih h.2
    rw [List.cons_append, splitAcc_cons_of_fst_cons h.1.symm (by rw [hih]), hih]

/-- Unfolding of `parseRankingLine` at a successfully decoded line. -/
theorem parseRankingLine_eq_of_parse (line : Str) (v : Json)
    (h : jsonParse line = some v) :
    parseRankingLine line =
      if isValidRanking v then
        some { id := jsTrim (jsToString ((jsGetField v "id").getD Json.null)),
               similarityScore :=
                 match jsGetField v "similarityScore" with
                 | some (.num q) => q
                 | _ => 0,
               rank :=
                 match jsGetField v "rank" with
                 | some (.num q) => q
                 | _ => 0 }
      else none := by
  unfold parseRankingLine
  rw [h]

/-- Claim C10: every candidate the ranking extractor emits carries the id
`String(id).trim()` of its line's decoded `id` field; consequently two
accepted lines whose normalized ids coincide — the number `7` versus the
string `"7"`, or ids differing only in surrounding whitespace — produce a
single candidate: only the first line is emitted. -/
theorem C10_string_trim_ids :
    (∀ (l : Str) (v : Json) (r : ProductRanking),
        jsonParse (jsTrim l) = some v →
        parseRankingLine (jsTrim l) = some r →
        r.id = jsTrim (jsToString ((jsGetField v "id").getD Json.null))) ∧
    (∀ (l1 l2 : Str) (r1 r2 : ProductRanking),
        '\n' ∉ l1 → '\n' ∉ l2 →
        parseRankingLine (jsTrim l1) = some r1 →
        parseRankingLine (jsTrim l2) = some r2 →
        r2.id = r1.id →
        rankRun ⟨[], []⟩ [l1 ++ '\n' :: (l2 ++ ['\n'])] = [r1]) := by
  constructor
  · intro l v r hparse hline
    rw [parseRankingLine_eq_of_parse (jsTrim l) v hparse] at hline
    rcases hval : isValidRanking v with _ | _
    · rw [hval] at hline; cases hline
    · rw [hval] at hline
      simp only [if_true] at hline
      injection hline with h
      rw [← h]
  · intro l1 l2 r1 r2 h1 h2 hp1 hp2 hid
    have hsplit : splitAcc (l1 ++ '\n' :: (l2 ++ ['\n'])) = ([l1, l2], []) := by
      rw [splitAcc_line_append l1 (l2 ++ ['\n']) h1,
        splitAcc_line_append l2 [] h2]
      rfl
    have hne1 : ¬(jsTrim l1).isEmpty := by
      intro he
      have : jsTrim l1 = [] := by simpa [List.isEmpty_iff] using he
      rw [this, parseRankingLine_nil] at hp1
      cases hp1
    have hne2 : ¬(jsTrim l2).isEmpty := by
      intro he
      have : jsTrim l2 = [] := by simpa [List.isEmpty_iff] using he
      rw [this, parseRankingLine_nil] at hp2
      cases hp2
    have hline1 : processLine [] l1 = ([r1], [r1.id]) := by
      unfold processLine
      simp [hne1, hp1]
    have hline2 : processLine [r1.id] l2 = ([], [r1.id]) := by
      unfold processLine
      simp [hne2, hp2, hid]
    have hparse : rankParse ⟨[], []⟩ (l1 ++ '\n' :: (l2 ++ ['\n'])) =
        ([r1], ⟨[], [r1.id]⟩) := by
      simp only [rankParse, splitNl_eq_splitAcc, List.nil_append, hsplit,
        List.dropLast_concat, List.getLast?_concat, Option.getD_some]
      simp [processLines, hline1, hline2]
    simp only [rankRun, hparse]
    simp [rankFlush, processLine, jsTrim]

/-! ## Product validation and sanitization
(`validateAndSanitizeProducts` in `src/services/analysis-utils.ts`) -/

/-- Modelled from the spec: the closed icon-category enum comes from
`src/config/icon-categories.ts`, a file missing from this snapshot; the spec
fixes only that it is a closed list with fallback value `"other"` (Scenario A
uses `"mug"`). -/
def ICON_CATEGORIES : List Str := ["mug".toList, "other".toList]

/-- `Object.values(Category)` from `src/types/analyze.ts`. -/
def CATEGORY_VALUES : List Str :=
  ["clothing".toList, "electronics".toList, "furniture".toList,
   "accessories".toList, "footwear".toList, "home_decor".toList,
   "books_media".toList, "sports_fitness".toList,
   "beauty_personal_care".toList, "kitchen_dining".toList, "other".toList]

/-- `Object.values(TargetGender)` from `src/types/analyze.ts`. -/
def TARGET_GENDER_VALUES : List Str :=
  ["men".toList, "women".toList, "unisex".toList, "boy".toList,
   "girl".toList]

/-- A sanitized `Product` (`src/types/analyze.ts`). -/
structure Product where
  name : Str
  iconCategory : Str
  category : Str
  brand : Str
  primaryColor : Str
  secondaryColors : List Str
  features : List Str
  targetGender : Str
  searchTerms : Str
  confidence : ℚ
deriving DecidableEq

/-- `typeof v.key === "string"`. -/
def fieldStr (v : Json) (key : String) : Bool :=
  match jsGetField v key with
  | some (.str _) => true
  | _ => false

/-- `Array.isArray(v.key)`. -/
def fieldArr (v : Json) (key : String) : Bool :=
  match jsGetField v key with
  | some (.arr _) => true
  | _ => false

/-- `isValidProduct`: a truthy object with string `name`, `iconCategory`,
`category`, `brand`, `primaryColor`, `targetGender`, `searchTerms`, array
`secondaryColors` and `features`, and a numeric `confidence` in `[1, 10]` —
there is no `confidence >= 6` test anywhere in this function. -/
def isValidProduct (v : Json) : Bool :=
  truthy v && typeofIsObject v &&
  fieldStr v "name" && fieldStr v "iconCategory" && fieldStr v "category" &&
  fieldStr v "brand" && fieldStr v "primaryColor" &&
  fieldArr v "secondaryColors" && fieldArr v "features" &&
  fieldStr v "targetGender" && fieldStr v "searchTerms" &&
  (match jsGetField v "confidence" with
   | some (.num q) => qle 1 q && qle q 10
   | _ => false)

/-- String field with `''` fallback (the sanitizer's defensive re-check). -/
def strFieldD (v : Json) (key : String) : Str :=
  match jsGetField v key with
  | some (.str s) => s
  | _ => []

/-- Array field with `[]` fallback. -/
def arrFieldD (v : Json) (key : String) : List Json :=
  match jsGetField v key with
  | some (.arr es) => es
  | _ => []

/-- Number field with fallback. -/
def numFieldD (v : Json) (key : String) (d : ℚ) : ℚ :=
  match jsGetField v key with
  | some (.num q) => q
  | _ => d

/-- `Math.round` (round half towards positive infinity). -/
def jsRound (q : ℚ) : Int := Rat.floor (q + 1 / 2)

/-- `validateIconCategory`: keep known icon categories, else `"other"`. -/
def validateIconCategory (s : Str) : Str :=
  if s ∈ ICON_CATEGORIES then s else "other".toList

/-- `validateBroadCategory`: keep known categories, else `Category.OTHER`. -/
def validateBroadCategory (s : Str) : Str :=
  if s ∈ CATEGORY_VALUES then s else "other".toList

/-- `validateTargetGender`: keep known values, else `TargetGender.UNISEX`. -/
def validateTargetGender (s : Str) : Str :=
  if s ∈ TARGET_GENDER_VALUES then s else "unisex".toList

/-- `sanitizeStringArray`: first `maxCount` items, each stringified,
truncated to `maxLength` and trimmed, keeping only nonempty results. -/
def sanitizeStringArray (arr : List Json) (maxLength maxCount : Nat) :
    List Str :=
  ((arr.take maxCount).map
    (fun item => jsTrim ((jsToString item).take maxLength))).filter
      (fun s => 0 < s.length)

/-- `sanitizeProduct`: truncate and trim strings, validate enums, bound the
arrays, and clamp `Math.round(Number(confidence) || 6)` into `[1, 10]`. -/
def sanitizeProduct (v : Json) : Product :=
  let confidence := numFieldD v "confidence" 6
  { name := jsTrim ((strFieldD v "name").take 100),
    iconCategory := validateIconCategory (strFieldD v "iconCategory"),
    category := validateBroadCategory (strFieldD v "category"),
    brand := jsTrim ((strFieldD v "brand").take 50),
    primaryColor := jsTrim ((strFieldD v "primaryColor").take 30),
    secondaryColors := sanitizeStringArray (arrFieldD v "secondaryColors") 30 3,
    features := sanitizeStringArray (arrFieldD v "features") 50 5,
    targetGender := validateTargetGender (strFieldD v "targetGender"),
    searchTerms := jsTrim ((strFieldD v "searchTerms").take 200),
    confidence :=
      ((max 1 (min 10 (jsRound (if confidence = 0 then 6 else confidence))) :
        ℤ) : ℚ) }

/-- `validateAndSanitizeProducts`: filter with `isValidProduct`, then map
`sanitizeProduct`. -/
def validateAndSanitizeProducts (products : List Json) : List Product :=
  (products.filter isValidProduct).map sanitizeProduct

/-- The non-confidence portion of `isValidProduct`. -/
def productShapeOk (v : Json) : Bool :=
  truthy v && typeofIsObject v &&
  fieldStr v "name" && fieldStr v "iconCategory" && fieldStr v "category" &&
  fieldStr v "brand" && fieldStr v "primaryColor" &&
  fieldArr v "secondaryColors" && fieldArr v "features" &&
  fieldStr v "targetGender" && fieldStr v "searchTerms"

theorem isValidProduct_decompose (v : Json) :
    isValidProduct v =
      (productShapeOk v &&
        (match jsGetField v "confidence" with
         | some (.num q) => qle 1 q && qle q 10
         | _ => false)) := by
  simp [isValidProduct, productShapeOk, Bool.and_assoc]

theorem sanitizeProduct_confidence (v : Json) :
    (sanitizeProduct v).confidence =
      ((max 1 (min 10 (jsRound (if numFieldD v "confidence" 6 = 0 then 6
        else numFieldD v "confidence" 6))) : ℤ) : ℚ) := rfl

/-- A fully populated recognized object whose confidence is 3. -/
def confidence3Product : Json := Json.obj
  [("name".toList, .str "Red Mug".toList),
   ("iconCategory".toList, .str "mug".toList),
   ("category".toList, .str "kitchen_dining".toList),
   ("brand".toList, .str "Acme".toList),
   ("primaryColor".toList, .str "red".toList),
   ("secondaryColors".toList, .arr []),
   ("features".toList, .arr []),
   ("targetGender".toList, .str "unisex".toList),
   ("searchTerms".toList, .str "red mug".toList),
   ("confidence".toList, .num 3)]

/-- Claim C2 counterexample: an object with confidence 3 (and otherwise
valid fields) is *not* discarded — `validateAndSanitizeProducts` returns it,
with confidence 3, contradicting the claimed below-6 cutoff. -/
theorem C2_confidence3_not_discarded :
    (validateAndSanitizeProducts [confidence3Product]).length = 1 ∧
    (validateAndSanitizeProducts [confidence3Product]).head?.map
      (·.confidence) = some 3 ∧
    (validateAndSanitizeProducts [confidence3Product]).head?.map
      (·.name) = some "Red Mug".toList := by
  refine ⟨?_, ?_, ?_⟩ <;> with_unfolding_all decide

/-- Claim C2 (amended): the sanitization step discards an otherwise
well-shaped object exactly when its numeric confidence lies outside
`[1, 10]`; a confidence of 3 — below the spec's claimed threshold of 6 —
is retained and survives into the returned list with confidence 3. -/
theorem C2_sanitizer_confidence_range (v : Json) (q : ℚ)
    (hshape : productShapeOk v = true)
    (hq : jsGetField v "confidence" = some (.num q)) :
    ((validateAndSanitizeProducts [v]).length = 1 ↔ 1 ≤ q ∧ q ≤ 10) ∧
    (q = 3 →
      (validateAndSanitizeProducts [v]).head?.map (·.confidence) = some 3) := by
  have hvalid : isValidProduct v = (qle 1 q && qle q 10) := by
    rw [isValidProduct_decompose, hshape, hq, Bool.true_and]
  constructor
  · constructor
    · intro hlen
      by_contra hrange
      have hfalse : isValidProduct v = false := by
        rw [hvalid]
        rcases hqb : (qle 1 q && qle q 10) with _ | _
        · rfl
        · exfalso
          rw [Bool.and_eq_true, qle_iff, qle_iff] at hqb
          exact hrange hqb
      unfold validateAndSanitizeProducts at hlen
      rw [List.filter_cons, hfalse] at hlen
      simp at hlen
    · intro hrange
      have htrue : isValidProduct v = true := by
        rw [hvalid, Bool.and_eq_true, qle_iff, qle_iff]
        exact hrange
      unfold validateAndSanitizeProducts
      rw [List.filter_cons, htrue]
      simp
  · intro hq3
    have htrue : isValidProduct v = true := by
      rw [hvalid, hq3, Bool.and_eq_true, qle_iff, qle_iff]
      norm_num
    have hone : validateAndSanitizeProducts [v] = [sanitizeProduct v] := by
      unfold validateAndSanitizeProducts
      rw [List.filter_cons, htrue]
      simp
    rw [hone]
    show some ((sanitizeProduct v).confidence) = some 3
    have hnum : numFieldD v "confidence" 6 = q := by
      unfold numFieldD
      rw [hq]
    rw [sanitizeProduct_confidence, hnum, hq3]
    with_unfolding_all decide

/-- Witness for C2's amended theorem at the concrete confidence-3 object. -/
theorem C2_witness :
    (validateAndSanitizeProducts [confidence3Product]).head?.map
      (·.confidence) = some 3 :=
  (C2_sanitizer_confidence_range confidence3Product 3
    (by with_unfolding_all decide) rfl).2 rfl

/-! ## Incremental object extractor
(`src/services/partial-product-parser.ts`)

The parser scans its buffer with the JavaScript regex
`/({(?:[^{}]|{(?:[^{}]|{[^{}]*})*})*})/g` — brace-balanced substrings up to
three nesting levels.  On this regex every alternation step is forced by the
next character (`[^{}]` cannot match a brace, the nested group must start
with `{`, and a group's match is unique), so the backtracking regex engine
behaves as the deterministic matcher below. -/

/-- The innermost group `{[^{}]*}`, positioned after its opening brace:
plain characters, then the closing brace.  Returns how many characters the
group body (including the closing brace) consumes. -/
def matchLvl1 : Str → Option Nat
  | [] => none
  | c :: rest =>
    if c = '}' then some 1
    else if c = '{' then none
    else (matchLvl1 rest).map (· + 1)

/-- The middle group body `(?:[^{}]|{[^{}]*})*}`, positioned after its
opening brace.  Every recursive level consumes at least one character, so
fuel `length + 1` always suffices. -/
def matchLvl2 : Nat → Str → Option Nat
  | 0, _ => none
  | _, [] => none
  | fuel + 1, c :: rest =>
    if c = '}' then some 1
    else if c = '{' then
      match matchLvl1 rest with
      | none => none
      | some n =>
        match matchLvl2 fuel (rest.drop n) with
        | none => none
        | some m => some (1 + n + m)
    else (matchLvl2 fuel rest).map (· + 1)

/-- The outer regex body `(?:[^{}]|{(?:[^{}]|{[^{}]*})*})*}`, positioned
after the opening brace of the whole match. -/
def matchLvl3 : Nat → Str → Option Nat
  | 0, _ => none
  | _, [] => none
  | fuel + 1, c :: rest =>
    if c = '}' then some 1
    else if c = '{' then
      match matchLvl2 fuel rest with
      | none => none
      | some n =>
        match matchLvl3 fuel (rest.drop n) with
        | none => none
        | some m => some (1 + n + m)
    else (matchLvl3 fuel rest).map (· + 1)

/-- Where the regex match starting at index `i` would end (exclusive), if
the regex matches there. -/
def braceEnd (s : Str) (i : Nat) : Option Nat :=
  match s.drop i with
  | c :: rest =>
    if c = '{' then
      match matchLvl3 (rest.length + 1) rest with
      | none => none
      | some n => some (i + 1 + n)
    else none
  | [] => none

/-- `regex.exec` with `lastIndex = pos`: the leftmost match at or after
`pos`. -/
def findMatchFrom (s : Str) (pos : Nat) : Option (Nat × Nat) :=
  if s.length ≤ pos then none
  else
    match braceEnd s pos with
    | some j => some (pos, j)
    | none => findMatchFrom s (pos + 1)
termination_by s.length - pos

/-- The `parsed && typeof parsed === "object" && "name" in parsed &&
"iconCategory" in parsed && "category" in parsed` test, applied both to a
matched object and to the elements of a matched array. -/
def isProductCandidate (v : Json) : Bool :=
  truthy v && typeofIsObject v &&
  (jsGetField v "name").isSome &&
  (jsGetField v "iconCategory").isSome &&
  (jsGetField v "category").isSome

theorem matchLvl1_bound (t : Str) : ∀ n, matchLvl1 t = some n →
    1 ≤ n ∧ n ≤ t.length := by
  induction t with
  | nil => intro n h; cases h
  | cons c rest ih =>
    intro n h
    rw [matchLvl1] at h
    split at h
    · injection h with h
      simp only [List.length_cons]
      omega
    · split at h
      · cases h
      · rcases hr : matchLvl1 rest with _ | m
        · simp [hr] at h
        · simp only [hr, Option.map_some', Option.some.injEq] at h
          have := ih m hr
          simp only [List.length_cons]
          omega

theorem matchLvl2_bound : ∀ (fuel : Nat) (t : Str) (n : Nat),
    matchLvl2 fuel t = some n → 1 ≤ n ∧ n ≤ t.length := by
  intro fuel
  induction fuel with
  | zero => intro t n h; simp [matchLvl2] at h
  | succ fuel ih =>
    intro t n h
    cases t with
    | nil => simp [matchLvl2] at h
    | cons c rest =>
      rw [matchLvl2] at h
      split at h
      · injection h with h
        simp only [List.length_cons]
        omega
      · split at h
        · split at h
          · cases h
          · rename_i m1 h1
            split at h
            · cases h
            · rename_i m2 h2
              injection h with h
              have hb1 := matchLvl1_bound rest m1 h1
              have hb2 := ih (rest.drop m1) m2 h2
              simp only [List.length_drop] at hb2
              simp only [List.length_cons]
              omega
        · rcases hr : matchLvl2 fuel rest with _ | m
          · simp [hr] at h
          · simp only [hr, Option.map_some', Option.some.injEq] at h
            have := ih rest m hr
            simp only [List.length_cons]
            omega

theorem matchLvl3_bound : ∀ (fuel : Nat) (t : Str) (n : Nat),
    matchLvl3 fuel t = some n → 1 ≤ n ∧ n ≤ t.length := by
  intro fuel
  induction fuel with
  | zero => intro t n h; simp [matchLvl3] at h
  | succ fuel ih =>
    intro t n h
    cases t with
    | nil => simp [matchLvl3] at h
    | cons c rest =>
      rw [matchLvl3] at h
      split at h
      · injection h with h
        simp only [List.length_cons]
        omega
      · split at h
        · split at h
          · cases h
          · rename_i m1 h1
            split at h
            · cases h
            · rename_i m2 h2
              injection h with h
              have hb1 := matchLvl2_bound fuel rest m1 h1
              have hb2 := ih (rest.drop m1) m2 h2
              simp only [List.length_drop] at hb2
              simp only [List.length_cons]
              omega
        · rcases hr : matchLvl3 fuel rest with _ | m
          · simp [hr] at h
          · simp only [hr, Option.map_some', Option.some.injEq] at h
            have := ih rest m hr
            simp only [List.length_cons]
            omega

theorem braceEnd_bound (s : Str) (i j : Nat) (h : braceEnd s i = some j) :
    i + 2 ≤ j ∧ j ≤ s.length := by
  unfold braceEnd at h
  split at h
  · rename_i c rest hd
    split at h
    · rename_i hc
      split at h
      · cases h
      · rename_i n hm
        injection h with h
        have hb := matchLvl3_bound (rest.length + 1) rest n hm
        have hlen : s.length - i = rest.length + 1 := by
          have := congrArg List.length hd
          simp only [List.length_drop, List.length_cons] at this
          omega
        have hi : i < s.length := by
          by_contra hcon
          push_neg at hcon
          have : s.drop i = [] := List.drop_eq_nil_of_le hcon
          rw [this] at hd
          cases hd
        omega
    · cases h
  · cases h

theorem findMatchFrom_spec_aux (s : Str) : ∀ (d pos i j : Nat),
    s.length - pos ≤ d → findMatchFrom s pos = some (i, j) →
    pos ≤ i ∧ i + 2 ≤ j ∧ j ≤ s.length := by
  intro d
  induction d with
  | zero =>
    intro pos i j hd h
    rw [findMatchFrom, if_pos (by omega)] at h
    cases h
  | succ d ih =>
    intro pos i j hd h
    rw [findMatchFrom] at h
    by_cases hlen : s.length ≤ pos
    · rw [if_pos hlen] at h; cases h
    · rw [if_neg hlen] at h
      rcases hb : braceEnd s pos with _ | jj
      · rw [hb] at h
        have := ih (pos + 1) i j (by omega) h
        omega
      · rw [hb] at h
        injection h with h1
        injection h1 with ha hb2
        have hspec := braceEnd_bound s pos jj hb
        omega

theorem findMatchFrom_spec (s : Str) (pos i j : Nat)
    (h : findMatchFrom s pos = some (i, j)) :
    pos ≤ i ∧ i + 2 ≤ j ∧ j ≤ s.length :=
  findMatchFrom_spec_aux s (s.length - pos) pos i j (le_refl _) h

/-- The scan loop of `parse`: repeatedly `exec` the regex; decode each
match; a product-shaped object (or the qualifying elements of an array) is
recorded with the match's span and `lastSuccessfulParseIndex` advances to
the match end; a decoded non-product advances past the match without
touching `lastSuccessfulParseIndex`; a decode failure resumes one character
after the match start.  Returns the emissions (with spans) and the final
`lastSuccessfulParseIndex`. -/
def scanBuffer (s : Str) (pos lastS : Nat) : List (Nat × Nat × Json) × Nat :=
  match hm : findMatchFrom s pos with
  | none => ([], lastS)
  | some (i, j) =>
    match jsonParse ((s.drop i).take (j - i)) with
    | some v =>
      if isProductCandidate v then
        ((i, j, v) :: (scanBuffer s j j).1, (scanBuffer s j j).2)
      else
        match v with
        | .arr es =>
          ((es.filter isProductCandidate).map (fun e => (i, j, e)) ++
            (scanBuffer s j j).1, (scanBuffer s j j).2)
        | _ => scanBuffer s j lastS
    | none => scanBuffer s (i + 1) lastS
termination_by s.length + 1 - pos
decreasing_by
  all_goals
    have hs := findMatchFrom_spec s pos i j hm
    omega

/-- `parse(newContent)` of `DefaultPartialProductParser`: append, scan,
sanitize the emissions, and drop the consumed prefix of the buffer. -/
def productParse (buffer fragment : Str) : List Product × Str :=
  (validateAndSanitizeProducts
      ((scanBuffer (buffer ++ fragment) 0 0).1.map (fun e => e.2.2)),
    (buffer ++ fragment).drop (scanBuffer (buffer ++ fragment) 0 0).2)

/-- All products one extractor instance returns over a sequence of `parse`
calls. -/
def productRun (buffer : Str) : List Str → List Product
  | [] => []
  | c :: cs =>
    (productParse buffer c).1 ++ productRun (productParse buffer c).2 cs

/-- Ghost-instrumented run of the object extractor: the decoded emissions
with their spans in global stream coordinates (`off` is the global position
of the buffer start; the parser itself keeps only the buffer). -/
def objRun (buffer : Str) (off : Nat) : List Str → List (Nat × Nat × Json)
  | [] => []
  | c :: cs =>
    (scanBuffer (buffer ++ c) 0 0).1.map
        (fun e => (off + e.1, off + e.2.1, e.2.2)) ++
      objRun ((buffer ++ c).drop (scanBuffer (buffer ++ c) 0 0).2)
        (off + (scanBuffer (buffer ++ c) 0 0).2) cs

/-! ### Evaluation lemmas for the scan loop -/

theorem findMatchFrom_braceEnd_aux (s : Str) : ∀ (d pos i j : Nat),
    s.length - pos ≤ d → findMatchFrom s pos = some (i, j) →
    braceEnd s i = some j := by
  intro d
  induction d with
  | zero =>
    intro pos i j hd h
    rw [findMatchFrom, if_pos (by omega)] at h
    cases h
  | succ d ih =>
    intro pos i j hd h
    rw [findMatchFrom] at h
    by_cases hlen : s.length ≤ pos
    · rw [if_pos hlen] at h; cases h
    · rw [if_neg hlen] at h
      rcases hb : braceEnd s pos with _ | jj
      · rw [hb] at h
        exact ih (pos + 1) i j (by omega) h
      · rw [hb] at h
        injection h with h1
        injection h1 with ha hb2
        rw [← ha, ← hb2]
        exact hb

theorem findMatchFrom_braceEnd (s : Str) (pos i j : Nat)
    (h : findMatchFrom s pos = some (i, j)) : braceEnd s i = some j :=
  findMatchFrom_braceEnd_aux s (s.length - pos) pos i j (le_refl _) h

theorem skipWs_cons_of_not_ws (c : Char) (t : Str) (h : isJsonWs c = false) :
    skipWs (c :: t) = c :: t := by
  unfold skipWs
  rw [List.dropWhile_cons, h]
  simp

set_option maxHeartbeats 1600000 in
/-- A string that starts with `{` can only decode to an object. -/
theorem parseVal_obj_head : ∀ (fuel : Nat) (t : Str) (v : Json) (r : Str),
    parseVal fuel ('{' :: t) = some (v, r) → ∃ fs, v = Json.obj fs := by
  intro fuel t v r h
  cases fuel with
  | zero => simp [parseVal] at h
  | succ fuel =>
    rw [parseVal] at h
    rw [skipWs_cons_of_not_ws '{' t (by decide)] at h
    split at h
    · rename_i heq
      cases heq
    · rename_i t' heq
      injection heq with hc ht
      split at h
      · injection h with h1
        injection h1 with hv hr
        exact ⟨[], hv.symm⟩
      · split at h
        · rename_i fs r2 hpp
          injection h with h1
          injection h1 with hv hr
          exact ⟨fs, hv.symm⟩
        · cases h
    · rename_i t' heq
      injection heq with hc ht
      exact absurd hc (by decide)
    · rename_i t' heq
      injection heq with hc ht
      exact absurd hc (by decide)
    · rename_i t' heq
      injection heq with hc ht
      exact absurd hc (by decide)
    · rename_i t' heq
      injection heq with hc ht
      exact absurd hc (by decide)
    · rename_i t' heq
      injection heq with hc ht
      exact absurd hc (by decide)
    · rename_i hne1 hne2 hne3 hne4 hne5 hne6 hne7
      have hnum : parseNumber ('{' :: t) = none := rfl
      rw [hnum] at h
      cases h

theorem jsonParse_obj_head (t : Str) (v : Json)
    (h : jsonParse ('{' :: t) = some v) : ∃ fields, v = Json.obj fields := by
  unfold jsonParse at h
  rcases hp : parseVal (('{' :: t).length + 4) ('{' :: t) with _ | ⟨v', r⟩
  · rw [hp] at h; cases h
  · rw [hp] at h
    split at h
    · rename_i v2 r2 heq
      injection heq with heq1
      injection heq1 with hv2 hr2
      split at h
      · injection h with h
        obtain ⟨fs, hfs⟩ := parseVal_obj_head _ t v' r hp
        exact ⟨fs, by rw [← h, ← hv2, hfs]⟩
      · cases h
    · cases h

/-- All emissions of one scan carry spans inside `[pos, s.length]`, in
strictly advancing order, each ending at or before the returned
`lastSuccessfulParseIndex`, which never decreases and stays in bounds. -/
theorem scanBuffer_spec (s : Str) : ∀ (d pos lastS : Nat),
    s.length + 1 - pos ≤ d → lastS ≤ pos → lastS ≤ s.length →
    (∀ e ∈ (scanBuffer s pos lastS).1,
      pos ≤ e.1 ∧ e.1 < e.2.1 ∧ e.2.1 ≤ s.length) ∧
    (scanBuffer s pos lastS).1.Pairwise (fun a b => a.2.1 ≤ b.1) ∧
    (∀ e ∈ (scanBuffer s pos lastS).1, e.2.1 ≤ (scanBuffer s pos lastS).2) ∧
    lastS ≤ (scanBuffer s pos lastS).2 ∧
    (scanBuffer s pos lastS).2 ≤ s.length := by
  intro d
  induction d with
  | zero =>
    intro pos lastS hd hlp hls
    have hnone : findMatchFrom s pos = none := by
      rw [findMatchFrom, if_pos (by omega)]
    rw [scanBuffer]
    split
    · refine ⟨by simp, by simp, by simp, le_refl _, hls⟩
    · rename_i i j hm
      rw [hnone] at hm
      cases hm
  | succ d ih =>
    intro pos lastS hd hlp hls
    rw [scanBuffer]
    split
    · refine ⟨by simp, by simp, by simp, le_refl _, hls⟩
    · rename_i i j hm
      have hspec := findMatchFrom_spec s pos i j hm
      split
      · rename_i v hv
        split
        · rename_i hp
          obtain ⟨A, B, C, D, E⟩ := ih j j (by omega) (le_refl j) (by omega)
          refine ⟨?_, ?_, ?_, by omega, E⟩
          · intro e he
            rcases List.mem_cons.mp he with rfl | he'
            · refine ⟨?_, ?_, ?_⟩ <;> (simp only; omega)
            · have := A e he'
              exact ⟨by omega, this.2.1, this.2.2⟩
          · rw [List.pairwise_cons]
            exact ⟨fun b hb => (A b hb).1, B⟩
          · intro e he
            rcases List.mem_cons.mp he with rfl | he'
            · simpa using D
            · exact C e he'
        · rename_i hp
          split
          · rename_i es
            exfalso
            have hbe := findMatchFrom_braceEnd s pos i j hm
            have hdrop : ∃ rest, s.drop i = '{' :: rest := by
              unfold braceEnd at hbe
              split at hbe
              · rename_i c rest hd2
                split at hbe
                · rename_i hc
                  exact ⟨rest, by rw [hd2, hc]⟩
                · cases hbe
              · cases hbe
            obtain ⟨rest, hdrop⟩ := hdrop
            have hsub : (s.drop i).take (j - i) =
                '{' :: rest.take (j - i - 1) := by
              rw [hdrop, show j - i = (j - i - 1) + 1 from by omega]
              rfl
            rw [hsub] at hv
            obtain ⟨fs, hfs⟩ := jsonParse_obj_head _ _ hv
            exact Json.noConfusion hfs
          · obtain ⟨A, B, C, D, E⟩ := ih j lastS (by omega) (by omega) hls
            refine ⟨?_, B, C, D, E⟩
            intro e he
            have := A e he
            exact ⟨by omega, this.2.1, this.2.2⟩
      · rename_i hv
        obtain ⟨A, B, C, D, E⟩ := ih (i + 1) lastS (by omega) (by omega) hls
        refine ⟨?_, B, C, D, E⟩
        intro e he
        have := A e he
        exact ⟨by omega, this.2.1, this.2.2⟩

/-- Across a whole run, emission spans (in global stream coordinates) are
strictly advancing: each span ends at or before the next one starts. -/
theorem objRun_spec (frags : List Str) : ∀ (buffer : Str) (off : Nat),
    (∀ e ∈ objRun buffer off frags, off ≤ e.1 ∧ e.1 < e.2.1) ∧
    (objRun buffer off frags).Pairwise (fun a b => a.2.1 ≤ b.1) := by
  induction frags with
  | nil => intro buffer off; exact ⟨by simp [objRun], by simp [objRun]⟩
  | cons c cs ih =>
    intro buffer off
    obtain ⟨A, B, C, D, E⟩ := scanBuffer_spec (buffer ++ c)
      ((buffer ++ c).length + 1) 0 0 (by omega) (le_refl 0) (by omega)
    obtain ⟨IA, IB⟩ := ih ((buffer ++ c).drop (scanBuffer (buffer ++ c) 0 0).2)
      (off + (scanBuffer (buffer ++ c) 0 0).2)
    constructor
    · intro e he
      rw [objRun] at he
      rcases List.mem_append.mp he with h1 | h2
      · rcases List.mem_map.mp h1 with ⟨e0, he0, rfl⟩
        have := A e0 he0
        exact ⟨by simp only; omega, by simp only; omega⟩
      · have := IA e h2
        exact ⟨by omega, this.2⟩
    · rw [objRun, List.pairwise_append]
      refine ⟨?_, IB, ?_⟩
      · rw [List.pairwise_map]
        exact B.imp (fun hab => by simp only; omega)
      · intro a ha b hb
        rcases List.mem_map.mp ha with ⟨e0, he0, rfl⟩
        have h1 := C e0 he0
        have h2 := (IA b hb).1
        simp only
        omega

/-- Claim C6: neither extractor emits a record twice for one logical
stream.  The ranking extractor never emits two candidates with the same
identifier over any sequence of `parse` calls plus the final `flush`; the
object extractor's emissions correspond to strictly advancing, pairwise
disjoint spans of the concatenated stream, so no text occurrence is ever
emitted twice even though retained text is re-scanned on every call. -/
theorem C6_no_record_emitted_twice :
    (∀ chunks : List Str,
      ((rankRun ⟨[], []⟩ chunks).map (·.id)).Nodup) ∧
    (∀ frags : List Str,
      (∀ e ∈ objRun [] 0 frags, e.1 < e.2.1) ∧
      (objRun [] 0 frags).Pairwise (fun a b => a.2.1 ≤ b.1) ∧
      ((objRun [] 0 frags).map (fun e => (e.1, e.2.1))).Nodup) := by
  constructor
  · intro chunks
    rw [rankRun_eq_processAll]
    exact (processLines_nodup _ []).1
  · intro frags
    obtain ⟨A, B⟩ := objRun_spec frags [] 0
    refine ⟨fun e he => (A e he).2, B, ?_⟩
    have hlt : (objRun [] 0 frags).Pairwise (fun a b => a.1 < b.1) :=
      B.imp_of_mem (fun ha hb hab => lt_of_lt_of_le (A _ ha).2 hab)
    show ((objRun [] 0 frags).map (fun e => (e.1, e.2.1))).Pairwise (· ≠ ·)
    rw [List.pairwise_map]
    refine hlt.imp (fun hab => ?_)
    intro hEq
    exact absurd (congrArg Prod.fst hEq) (ne_of_lt hab)

/-! ### Fragmentation behaviour of the object extractor (claim C4) -/

theorem matchLvl1_close (t : Str) : ∀ n, matchLvl1 t = some n →
    '}' ∈ t := by
  induction t with
  | nil => intro n h; cases h
  | cons c rest ih =>
    intro n h
    rw [matchLvl1] at h
    split at h
    · rename_i hc
      rw [hc]
      exact List.mem_cons_self _ _
    · split at h
      · cases h
      · rcases hr : matchLvl1 rest with _ | m
        · simp [hr] at h
        · exact List.mem_cons_of_mem _ (ih m hr)

theorem matchLvl2_close : ∀ (fuel : Nat) (t : Str) (n : Nat),
    matchLvl2 fuel t = some n → '}' ∈ t := by
  intro fuel
  induction fuel with
  | zero => intro t n h; simp [matchLvl2] at h
  | succ fuel ih =>
    intro t n h
    cases t with
    | nil => simp [matchLvl2] at h
    | cons c rest =>
      rw [matchLvl2] at h
      split at h
      · rename_i hc
        rw [hc]
        exact List.mem_cons_self _ _
      · split at h
        · split at h
          · cases h
          · rename_i m1 h1
            exact List.mem_cons_of_mem _ (matchLvl1_close rest m1 h1)
        · rcases hr : matchLvl2 fuel rest with _ | m
          · simp [hr] at h
          · exact List.mem_cons_of_mem _ (ih rest m hr)

theorem matchLvl3_close : ∀ (fuel : Nat) (t : Str) (n : Nat),
    matchLvl3 fuel t = some n → '}' ∈ t := by
  intro fuel
  induction fuel with
  | zero => intro t n h; simp [matchLvl3] at h
  | succ fuel ih =>
    intro t n h
    cases t with
    | nil => simp [matchLvl3] at h
    | cons c rest =>
      rw [matchLvl3] at h
      split at h
      · rename_i hc
        rw [hc]
        exact List.mem_cons_self _ _
      · split at h
        · split at h
          · cases h
          · rename_i m1 h1
            exact List.mem_cons_of_mem _ (matchLvl2_close fuel rest m1 h1)
        · rcases hr : matchLvl3 fuel rest with _ | m
          · simp [hr] at h
          · exact List.mem_cons_of_mem _ (ih rest m hr)

theorem braceEnd_close (s : Str) (i j : Nat) (h : braceEnd s i = some j) :
    '}' ∈ s := by
  unfold braceEnd at h
  split at h
  · rename_i c rest hd
    split at h
    · rename_i hc
      split at h
      · cases h
      · rename_i n hm
        have hmem : '}' ∈ c :: rest := List.mem_cons_of_mem _
          (matchLvl3_close (rest.length + 1) rest n hm)
        rw [← hd] at hmem
        exact (List.drop_sublist i s).mem hmem
    · cases h
  · cases h

theorem findMatchFrom_close (s : Str) (pos i j : Nat)
    (h : findMatchFrom s pos = some (i, j)) : '}' ∈ s :=
  braceEnd_close s i j (findMatchFrom_braceEnd s pos i j h)

/-- A buffer without any close brace produces no regex match and hence no
emission: the scan returns immediately. -/
theorem scanBuffer_no_close (s : Str) (pos lastS : Nat) (h : '}' ∉ s) :
    scanBuffer s pos lastS = ([], lastS) := by
  rw [scanBuffer]
  split
  · rfl
  · rename_i i j hm
    exact absurd (findMatchFrom_close s pos i j hm) h

/-- `parse` on a buffer without any close brace emits nothing and retains
everything. -/
theorem productParse_no_close (buffer fragment : Str)
    (h : '}' ∉ buffer ++ fragment) :
    productParse buffer fragment = ([], buffer ++ fragment) := by
  unfold productParse
  rw [scanBuffer_no_close _ 0 0 h]
  rfl

theorem mem_concat_of_mem (x : Char) (f : Str) (fl : List Str)
    (hf : f ∈ fl) (hx : x ∈ f) : x ∈ fl.foldr (· ++ ·) [] := by
  induction fl with
  | nil => cases hf
  | cons g gl ih =>
    rcases List.mem_cons.mp hf with rfl | hf'
    · exact List.mem_append.mpr (Or.inl hx)
    · exact List.mem_append.mpr (Or.inr (ih hf'))

/-- When every fragment before the last is free of close braces, nothing is
emitted or trimmed before the final fragment, so the run equals one parse
of the whole remaining text. -/
theorem productRun_concat_front (front : List Str) :
    ∀ (lastF B : Str), (∀ f ∈ front, '}' ∉ f) → '}' ∉ B →
    productRun B (front ++ [lastF]) =
      productRun B [front.foldr (· ++ ·) [] ++ lastF] := by
  induction front with
  | nil => intro lastF B _ _; simp
  | cons f front' ih =>
    intro lastF B hfront hB
    have hBf : '}' ∉ B ++ f := by
      intro hmem
      rcases List.mem_append.mp hmem with h | h
      · exact hB h
      · exact hfront f (List.mem_cons_self _ _) h
    have hpp := productParse_no_close B f hBf
    have hih := ih lastF (B ++ f)
      (fun g hg => hfront g (List.mem_cons_of_mem _ hg)) hBf
    calc productRun B ((f :: front') ++ [lastF])
        = (productParse B f).1 ++
            productRun (productParse B f).2 (front' ++ [lastF]) := rfl
      _ = productRun (B ++ f) (front' ++ [lastF]) := by
            rw [hpp]
            simp
      _ = productRun (B ++ f) [front'.foldr (· ++ ·) [] ++ lastF] := hih
      _ = productRun B [(f :: front').foldr (· ++ ·) [] ++ lastF] := by
            show (productParse (B ++ f) (front'.foldr (· ++ ·) [] ++ lastF)).1 ++ _ =
              (productParse B ((f ++ front'.foldr (· ++ ·) []) ++ lastF)).1 ++ _
            unfold productParse
            simp [List.append_assoc]

/-- Claim C4 counterexample text: a complete JSON object whose single value
is itself a fully valid product object. -/
def c4Whole : Str :=
  ("\x7b\"a\":\x7b\"name\":\"n\",\"iconCategory\":\"i\",\"category\":\"c\"," ++
   "\"brand\":\"b\",\"primaryColor\":\"p\",\"secondaryColors\":[]," ++
   "\"features\":[],\"targetGender\":\"men\",\"searchTerms\":\"s\"," ++
   "\"confidence\":8\x7d\x7d").toList

/-- The same text split before its final close brace. -/
def c4Frag1 : Str := c4Whole.dropLast

set_option maxRecDepth 8000 in
/-- Claim C4 counterexample: fed whole, the text yields no record (the
outer object is not product-shaped, and the regex never revisits the inside
of a decoded match); split into two fragments, the nested product object
completes first, is matched and emitted, so the two runs extract different
record sets over the same complete JSON text. -/
theorem C4_fragmentation_changes_output :
    c4Frag1 ++ ['\x7d'] = c4Whole ∧
    (productRun [] [c4Whole]).length = 0 ∧
    (productRun [] [c4Frag1, ['\x7d']]).length = 1 := by
  refine ⟨?_, ?_, ?_⟩
  · with_unfolding_all decide
  · with_unfolding_all decide
  · with_unfolding_all decide

/-- Claim C4 (amended): fragmentation-invariance holds for every complete
text whose only close brace is its final character — in particular for a
single flat JSON object — over every partition into fragments: the run
over the fragments returns the same extracted record list as one parse of
the whole text.  (The counterexample shows it fails as soon as a proper
brace-balanced substring can complete before the whole text does.) -/
theorem C4_flat_fragmentation_invariance (body : Str) (frags : List Str)
    (hbody : '}' ∉ body)
    (hconcat : frags.foldr (· ++ ·) [] = body ++ ['\x7d'])
    (hne : ∀ f ∈ frags, f ≠ []) :
    productRun [] frags = productRun [] [body ++ ['\x7d']] := by
  rcases List.eq_nil_or_concat frags with rfl | ⟨front, lastF, rfl⟩
  · exfalso
    rw [List.foldr_nil] at hconcat
    exact absurd hconcat.symm (by simp)
  · rw [List.concat_eq_append] at hconcat hne ⊢
    have hc2 : front.foldr (· ++ ·) [] ++ lastF = body ++ ['\x7d'] := by
      rw [← hconcat]
      clear hconcat hne
      induction front with
      | nil => simp
      | cons g gl ih => simp [List.foldr_cons, ih, List.append_assoc]
    have hfront : ∀ f ∈ front, '}' ∉ f := by
      have hlast : lastF ≠ [] := hne lastF (by simp)
      intro f hf hmem
      have hx : '}' ∈ front.foldr (· ++ ·) [] :=
        mem_concat_of_mem _ f front hf hmem
      have hlen : (front.foldr (· ++ ·) []).length + lastF.length =
          body.length + 1 := by
        have := congrArg List.length hc2
        simpa using this
      have hlelen : (front.foldr (· ++ ·) []).length ≤ body.length := by
        have h1 : 1 ≤ lastF.length := by
          cases lastF with
          | nil => exact absurd rfl hlast
          | cons a l => simp
        omega
      have htake : front.foldr (· ++ ·) [] =
          body.take (front.foldr (· ++ ·) []).length := by
        have h1 : (front.foldr (· ++ ·) [] ++ lastF).take
            (front.foldr (· ++ ·) []).length = front.foldr (· ++ ·) [] := by
          rw [List.take_append_eq_append_take]
          simp
        rw [hc2, List.take_append_eq_append_take,
          Nat.sub_eq_zero_of_le hlelen] at h1
        simpa using h1.symm
      rw [htake] at hx
      exact hbody ((List.take_sublist _ _).mem hx)
    have hrun := productRun_concat_front front lastF [] hfront (by simp)
    rw [hrun, hc2]

/-- Witness for C4's amended theorem: the flat object `{"a":1}` split into
two fragments extracts the same record list as when fed whole. -/
theorem C4_witness :
    productRun [] ["\x7b\"a\"".toList, ":1\x7d".toList] =
      productRun [] ["\x7b\"a\":1".toList ++ ['\x7d']] :=
  C4_flat_fragmentation_invariance "\x7b\"a\":1".toList
    ["\x7b\"a\"".toList, ":1\x7d".toList]
    (by with_unfolding_all decide) (by with_unfolding_all decide)
    (by with_unfolding_all decide)

/-- Witness for C10 at concrete lines: `{"id":7,...}` then
`{"id":" 7 ",...}` — `String(7).trim()` and `" 7 ".trim()` are both `"7"`,
so only the first candidate is emitted. -/
theorem C10_witness :
    rankRun ⟨[], []⟩
        ["\x7b\"id\":7,\"similarityScore\":85,\"rank\":1\x7d".toList ++
          '\n' ::
          ("\x7b\"id\":\" 7 \",\"similarityScore\":90,\"rank\":2\x7d".toList ++
            ['\n'])] =
      [⟨"7".toList, 85, 1⟩] := by
  exact C10_string_trim_ids.2
    "\x7b\"id\":7,\"similarityScore\":85,\"rank\":1\x7d".toList
    "\x7b\"id\":\" 7 \",\"similarityScore\":90,\"rank\":2\x7d".toList
    ⟨"7".toList, 85, 1⟩ ⟨"7".toList, 90, 2⟩
    (by with_unfolding_all decide) (by with_unfolding_all decide)
    (by with_unfolding_all decide) (by with_unfolding_all decide)
    (by with_unfolding_all decide)

end PauseShop
